import Mathlib

/-
Verification development for the community-decomposition engine of
src/scheduler/main.py (class CommunityFinder).

The embedding models the igraph/networkx graph values as index-labelled
vertex lists with an explicit edge list, Python ints as Lean Int, Python
floats as exact rationals, and Python dictionaries as association lists in
insertion order.  The external igraph centrality routines and the external
community-detection algorithms are parameters (they are external
collaborators per the interface contract); everything else is translated
from the source.  Fallible code (ZeroDivisionError on an isolated
requested vertex) is modelled with Except/Option, and the unbounded
Python recursion is modelled with an explicit fuel parameter, where fuel
exhaustion is a distinguished error.
-/

/-- Python values relevant to the dynamic `isinstance` checks in `parse`:
an int, a string, or anything else (`None` and other objects behave alike
in every check the source performs). -/
inductive PyVal where
  | int (i : Int)
  | str (s : String)
  | other
deriving DecidableEq

/-- Graph as igraph holds it after `from_networkx`: vertices are densely
indexed `0..n-1`, vertex `i` carries the string label `labels[i]` (the
`_nx_name` attribute), and `edges` is `get_edgelist()`.  Self-loops and
parallel edges are representable, exactly as in igraph. -/
structure Graph where
  labels : List String
  edges : List (Nat × Nat)
deriving DecidableEq

/-- Vertex count `len(graph.vs)`. -/
def Graph.n (g : Graph) : Nat := g.labels.length

/-- Degree of one vertex, igraph convention (a self-loop contributes 2). -/
def Graph.degree (g : Graph) (i : Nat) : Nat :=
  (g.edges.filter (fun e => e.1 = i)).length + (g.edges.filter (fun e => e.2 = i)).length

/-- The list `graph.degree()` over all vertices in index order. -/
def Graph.degreeList (g : Graph) : List Nat := (List.range g.n).map g.degree

/-- Neighbor multiset of `v`, as `graph.neighbors(v)` yields it (a
parallel edge repeats the neighbor, a self-loop yields `v` twice). -/
def Graph.neighbors (g : Graph) (v : Nat) : List Nat :=
  g.edges.flatMap (fun e => (if e.1 = v then [e.2] else []) ++ (if e.2 = v then [e.1] else []))

/-- Label edge list `[[name(u), name(v)] for (u,v) in graph.get_edgelist()]`
(src lines 235 and 242). -/
def Graph.edgeLabels (g : Graph) : List (List String) :=
  g.edges.map (fun e => [g.labels.getD e.1 "", g.labels.getD e.2 ""])

/-- An edge as the undirected simple graph `nx.Graph(edgelist)` stores it:
endpoint order is irrelevant, so normalize to (low, high). -/
def normEdge (e : Nat × Nat) : Nat × Nat := if e.1 ≤ e.2 then e else (e.2, e.1)

/-- Edge set of `nx.Graph(graph.get_edgelist())`: parallel edges collapse,
self-loops survive. -/
def Graph.simpleEdges (g : Graph) : List (Nat × Nat) := (g.edges.map normEdge).dedup

/-- Merge two component classes in a component-labelling list. -/
def relabelComp (comps : List Nat) (a b : Nat) : List Nat :=
  comps.map (fun c => if c = b then a else c)

/-- Union-find style scan over the simple edge list: true iff some edge
closes a cycle (a self-loop closes one immediately).  This decides exactly
the question `nx.find_cycle` answers on the simple graph. -/
def cycleLoop : List Nat → List (Nat × Nat) → Bool
  | _, [] => false
  | comps, e :: rest =>
    if e.1 = e.2 then true
    else
      let cu := comps.getD e.1 e.1
      let cv := comps.getD e.2 e.2
      if cu = cv then true else cycleLoop (relabelComp comps cu cv) rest

/-- `has_cycles` (src lines 140-147): convert the edge list to an
undirected simple graph and ask for any cycle. -/
def Graph.has_cycles (g : Graph) : Bool := cycleLoop (List.range g.n) g.simpleEdges

/-- First position of `x` in a list of vertex indices. -/
def listPos : List Nat → Nat → Option Nat
  | [], _ => Option.none
  | a :: as, x => if a = x then some 0 else (listPos as x).map (· + 1)

/-- `graph.subgraph(graph.vs.select(vs))`: the induced subgraph on the
selected vertices, reindexed by position in the selection, keeping the
original edge order. -/
def Graph.inducedSubgraph (g : Graph) (vs : List Nat) : Graph where
  labels := vs.map (fun i => g.labels.getD i "")
  edges := g.edges.filterMap (fun e =>
    match listPos vs e.1, listPos vs e.2 with
    | some ia, some ib => some (ia, ib)
    | _, _ => Option.none)

/-- The external igraph centrality capabilities used by
`find_topological_and_centrality_properties`: each returns one raw value
per vertex of the given graph. -/
structure CentralityLib where
  evcent : Graph → List ℚ
  betweenness : Graph → List ℚ
  closeness : Graph → List ℚ
  transitivity_local_undirected : Graph → List ℚ

/-- Body of the per-vertex loop of
`find_topological_and_centrality_properties` (src lines 316-327), for a
graph already known to have at least 3 vertices.  Python raises
IndexError on an out-of-range vertex and ZeroDivisionError on an isolated
vertex; both are modelled as `none`. -/
def props_row (lib : CentralityLib) (g : Graph) (v : Nat) : Option (List ℚ) :=
  if v < g.n then
    let nbh := g.neighbors v
    if nbh.length = 0 then Option.none
    else
      let denom : ℚ := (((g.n - 1) * (g.n - 2) : Nat) : ℚ) / 2
      some [
        (lib.evcent g).getD v 0 / denom,
        (lib.betweenness g).getD v 0 / denom,
        (lib.closeness g).getD v 0,
        (g.degreeList.count (g.degreeList.getD v 0) : ℚ) / (g.degreeList.length : ℚ),
        (lib.transitivity_local_undirected g).getD v 0,
        ((nbh.map g.degree).sum : ℚ) / (nbh.length : ℚ),
        (g.degreeList.getD v 0 : ℚ)
      ]
  else Option.none

/-- `find_topological_and_centrality_properties` (src lines 276-329).
The output dictionary is an association list in request order. -/
def find_topological_and_centrality_properties (lib : CentralityLib) (g : Graph)
    (vertex_indices : List Nat) : Option (List (Nat × List ℚ)) :=
  if g.n < 3 then
    some (vertex_indices.map (fun i => (i, [-1, -1, -1, -1, -1, -1, -1])))
  else
    vertex_indices.mapM (fun v => (props_row lib g v).map (fun r => (v, r)))

/-- One node of the decomposition tree (the nested dictionaries rooted at
`self.tree['root']`); a field the source never assigns on a child
dictionary is modelled by the value the serialized tree exposes
(`is_leaf_node` absent/False). -/
inductive TreeNode where
  | mk (name lineage : String) (current_depth : Nat) (key_regs : List (String × List ℚ))
      (num_vertices : Nat) (has_keyreg : Bool) (is_leaf_node : Bool)
      (children : List TreeNode)

def TreeNode.name : TreeNode → String
  | .mk a _ _ _ _ _ _ _ => a

def TreeNode.lineage : TreeNode → String
  | .mk _ a _ _ _ _ _ _ => a

def TreeNode.current_depth : TreeNode → Nat
  | .mk _ _ a _ _ _ _ _ => a

def TreeNode.key_regs : TreeNode → List (String × List ℚ)
  | .mk _ _ _ a _ _ _ _ => a

def TreeNode.num_vertices : TreeNode → Nat
  | .mk _ _ _ _ a _ _ _ => a

def TreeNode.has_keyreg : TreeNode → Bool
  | .mk _ _ _ _ _ a _ _ => a

def TreeNode.is_leaf_node : TreeNode → Bool
  | .mk _ _ _ _ _ _ a _ => a

def TreeNode.children : TreeNode → List TreeNode
  | .mk _ _ _ _ _ _ _ a => a

/-- `tree['is_leaf_node'] = True`. -/
def TreeNode.setIsLeaf : TreeNode → TreeNode
  | .mk a b c d e f _ ch => .mk a b c d e f true ch

/-- Attach the accumulated `tree['children']`. -/
def TreeNode.setChildren : TreeNode → List TreeNode → TreeNode
  | .mk a b c d e f l _, ch => .mk a b c d e f l ch

/-- Python dictionary assignment `d[k] = v` on an association list:
overwrite in place if the key exists, append otherwise. -/
def updAssoc {κ α : Type} [DecidableEq κ] (l : List (κ × α)) (k : κ) (v : α) : List (κ × α) :=
  if l.any (fun p => p.1 = k) then l.map (fun p => if p.1 = k then (k, v) else p)
  else l ++ [(k, v)]

/-- The shared mutable accumulators of one decomposition run: the
key-regulator trace, the two edge-list maps, and the lineage-indexed
subgraph table.  A trace value is the raw Python value written at
src line 202: `None` for the root call, the lineage string otherwise. -/
structure St where
  key_reg_trace : List (String × Option String)
  leaf_communities_edgelist : List (Option String × List (List String))
  root_communities_edgelist : List (String × List (List String))
  communities_subgraph_inclusive : List (String × Graph)

/-- Errors a decomposition run can produce in this model: fuel exhaustion
(the Python original simply recurses deeper) or the unguarded
ZeroDivisionError / IndexError inside the property computation. -/
inductive DErr where
  | fuelOut
  | zeroDiv
deriving DecidableEq

/-- Configuration carried by the recursion. -/
structure Config where
  key_regulators : List String
  subgraph_min_vertices : Int

/-- One step of the CPython `for vertices in communities: if ...:
communities.remove(vertices)` loop (src lines 252-253): the iterator
keeps a position `i` into the list being mutated, and `remove` deletes
the first occurrence of the current element. -/
def pyRemoveLoop (n : Nat) : Nat → List (List Nat) → Nat → List (List Nat)
  | 0, l, _ => l
  | fuel + 1, l, i =>
    if h : i < l.length then
      let x := l.get ⟨i, h⟩
      if x.length = n then pyRemoveLoop n fuel (l.erase x) (i + 1)
      else pyRemoveLoop n fuel l (i + 1)
    else l

/-- The whole-graph-block filter of src lines 252-253.  The loop advances
its index at most `l.length` times, so that much fuel is exact. -/
def pyRemoveFull (n : Nat) (l : List (List Nat)) : List (List Nat) :=
  pyRemoveLoop n l.length l 0

/-- Split a character list at a separator, Python `str.split(sep)`
semantics for a single-character separator. -/
def splitChars (sep : Char) : List Char → List (List Char)
  | [] => [[]]
  | c :: cs =>
    let r := splitChars sep cs
    if c = sep then [] :: r
    else
      match r with
      | [] => [[c]]
      | h :: t => (c :: h) :: t

/-- `depth.split('_')[-1]` (src line 226). -/
def lastSegment (s : String) : String :=
  String.mk ((splitChars '_' s.data).getLastD [])

/-- `tree['lineage'].count('_')` (src line 222). -/
def countSep (s : String) : Nat := s.data.count '_'

/-- The key-regulator vertices present in the current graph
(src line 198): index and label of every vertex whose label is a key
regulator, in index order. -/
def key_reg_vertices (cfg : Config) (g : Graph) : List (Nat × String) :=
  (List.range g.n).filterMap (fun i =>
    if (g.labels.getD i "") ∈ cfg.key_regulators then some (i, g.labels.getD i "")
    else Option.none)

/-- Src lines 194-195: record the current subgraph under its lineage,
except at the root where `depth` is None. -/
def record_subgraph (depth : Option String) (g : Graph) (st : St) : St :=
  match depth with
  | Option.none => st
  | some d =>
    { st with communities_subgraph_inclusive := updAssoc st.communities_subgraph_inclusive d g }

/-- Src lines 200-202: overwrite the trace entry of every key regulator
present in this graph with the raw `depth` argument. -/
def record_trace (cfg : Config) (g : Graph) (depth : Option String) (st : St) : St :=
  { st with key_reg_trace :=
      (key_reg_vertices cfg g).foldl (fun tr p => updAssoc tr p.2 depth) st.key_reg_trace }

/-- Src lines 241-243: before partitioning, snapshot the edge list under
the internal `0_`-prefixed key, except at the root. -/
def record_root_edges (depth : Option String) (g : Graph) (st : St) : St :=
  match depth with
  | Option.none => st
  | some d =>
    { st with root_communities_edgelist :=
        updAssoc st.root_communities_edgelist ("0_" ++ d) g.edgeLabels }

/-- Src lines 214-226: the tree-node dictionary as it stands after the
field assignments and before the stop-condition tests. -/
def node_of (cfg : Config) (g : Graph) (depth : Option String) (props : List (Nat × List ℚ)) :
    TreeNode :=
  let krv := key_reg_vertices cfg g
  let lineage := match depth with
    | Option.none => "0"
    | some d => d
  TreeNode.mk
    (match depth with
     | Option.none => "root"
     | some d => lastSegment d)
    lineage (countSep lineage + 1)
    (krv.map (fun p => (p.2, (props.lookup p.1).getD [])))
    g.n (!krv.isEmpty) false []

/-- Src lines 267-270: the lineage passed to a child call, appending the
1-based child index (just the index at the root). -/
def child_depth (depth : Option String) (idx : Nat) : String :=
  match depth with
  | Option.none => toString idx
  | some d => d ++ "_" ++ toString idx

/-- The child-processing loop of `find_communities_recursive`
(src lines 255-274), abstracted over the recursive continuation `rec`
(the recursion one fuel level down): for each surviving community, in
order, build the induced subgraph, extend the lineage with the 1-based
index, recurse, and append the child tree. -/
def find_communities_children (rec : Graph → Option String → Nat → St → Except DErr (TreeNode × St)) :
    List (List Nat) → Nat → Graph → Option String → Nat → St → Except DErr (List TreeNode × St)
  | [], _, _, _, _, st => .ok ([], st)
  | vs :: rest, idx, g, depth, method, st =>
    let sub := g.inducedSubgraph vs
    match rec sub (some (child_depth depth idx)) method st with
    | .error e => .error e
    | .ok (ct, st1) =>
      match find_communities_children rec rest (idx + 1) g depth method st1 with
      | .error e => .error e
      | .ok (cts, st2) => .ok (ct :: cts, st2)

/-- `find_communities_recursive` (src lines 192-274).  `depth` is the
lineage argument (None at the root), `method` selects the external
community-detection algorithm, `P` is that external partitioner
(`community_multilevel` for method 0, `community_leading_eigenvector`
for method 1), and `fuel` bounds the recursion depth of the model. -/
def find_communities_recursive (lib : CentralityLib) (P : Graph → Nat → List (List Nat))
    (cfg : Config) :
    Nat → Graph → Option String → Nat → St → Except DErr (TreeNode × St)
  | 0, _, _, _, _ => .error .fuelOut
  | fuel + 1, g, depth, method, st =>
    let st1 : St := record_trace cfg g depth (record_subgraph depth g st)
    match find_topological_and_centrality_properties lib g
        ((key_reg_vertices cfg g).map (fun p => p.1)) with
    | Option.none => .error .zeroDiv
    | some props =>
      let node := node_of cfg g depth props
      if g.has_cycles = false then
        .ok (node.setIsLeaf, st1)
      else if (g.n : Int) ≤ cfg.subgraph_min_vertices then
        if 1 < g.edgeLabels.length then
          .ok (node.setIsLeaf,
            { st1 with leaf_communities_edgelist :=
                updAssoc st1.leaf_communities_edgelist depth g.edgeLabels })
        else
          .ok (node, st1)
      else
        match find_communities_children (find_communities_recursive lib P cfg fuel)
            (pyRemoveFull g.n (P g method)) 1 g depth method (record_root_edges depth g st1) with
        | .error e => .error e
        | .ok (cts, st3) => .ok (node.setChildren cts, st3)

/-- Stable ascending insertion into a list sorted by `key`: an element
goes before the first strictly greater one, after all equal-key elements
already placed from later input positions is impossible since it is
placed before elements it preceded — this is the standard stable insert. -/
def insertByKey (key : Nat → Nat) (x : Nat) : List Nat → List Nat
  | [] => [x]
  | y :: ys => if key y < key x then y :: insertByKey key x ys else x :: y :: ys

/-- A stable ascending sort by `key`; CPython `sorted(l, key=...)` is the
unique stable ascending rearrangement, so this models it exactly. -/
def sortByKey (key : Nat → Nat) : List Nat → List Nat
  | [] => []
  | x :: xs => insertByKey key x (sortByKey key xs)

/-- Python tail slice `l[-w:]` for an arbitrary int `w`. -/
def pyTailSlice {α : Type} (l : List α) (w : Int) : List α :=
  if 0 < w then l.drop (l.length - w.toNat) else l.drop (-w).toNat

/-- The key-regulator selection of `parse` (src lines 89-90):
`sorted(range(len(degrees)), key=lambda sub: degrees[sub])[-w:]`. -/
def key_regulator_vertex_ids (g : Graph) (w : Int) : List Nat :=
  pyTailSlice (sortByKey (fun i => g.degreeList.getD i 0) (List.range g.n)) w

/-- Errors `parse` can raise: the TypeError of the bin-width check, the
ValueError of the algorithm dispatch, or an error of the recursion. -/
inductive Err where
  | typeError (m : String)
  | valueError (m : String)
  | runtime (e : DErr)
deriving DecidableEq

/-- The algorithm dispatch of `parse` (src lines 114-128): a recognized
string selects the method and the tree label, an unrecognized string
raises ValueError naming the value, and anything that is not a string
(None included) silently falls back to Louvain with the label left ''. -/
def cf_dispatch (cf_algo : PyVal) : Except String (Nat × String) :=
  match cf_algo with
  | .str s =>
    if s = "louvain" then .ok (0, "Louvain")
    else if s = "leading_eigenvector" then .ok (1, "Leading eigenvector")
    else .error ("Invalid community finding algorithm " ++ s ++ ".")
  | _ => .ok (0, "")

/-- What `parse` leaves behind on success: the root tree node, the final
accumulators, the `_max_degree_nodes` dictionary (label to degree), and
the `cf_algo` label written into the root dictionary. -/
structure ParseOut where
  tree : TreeNode
  st : St
  max_degree_nodes : List (String × Nat)
  cf_label : String

/-- `parse` (src lines 67-138).  `smv0` is the current
`self.subgraph_min_vertices`; a non-int `subgraph_min_vertices` argument
is silently ignored (src line 69), and the bin-width check (src line 82)
only tests int-ness.  The graph is a required model argument, so the
no-graph TypeError of src line 72 is outside this embedding. -/
def parse (lib : CentralityLib) (P : Graph → Nat → List (List Nat)) (g : Graph) (fuel : Nat)
    (smv0 : Int) (subgraph_min_vertices : PyVal) (key_regulator_bin_width : PyVal)
    (cf_algo : PyVal) : Except Err ParseOut :=
  let minV : Int := match subgraph_min_vertices with
    | .int i => i
    | _ => smv0
  match key_regulator_bin_width with
  | .int w =>
    let ids := key_regulator_vertex_ids g w
    let max_degree_nodes : List (String × Nat) :=
      ids.foldl (fun acc i => updAssoc acc (g.labels.getD i "") (g.degree i)) []
    let regs := max_degree_nodes.map (fun p => p.1)
    let trace0 : List (String × Option String) := regs.map (fun nm => (nm, some ""))
    match cf_dispatch cf_algo with
    | .error m => .error (.valueError m)
    | .ok (method, label) =>
      match find_communities_recursive lib P
          { key_regulators := regs, subgraph_min_vertices := minV } fuel g Option.none method
          ⟨trace0, [], [], []⟩ with
      | .error e => .error (.runtime e)
      | .ok (t, st) => .ok ⟨t, st, max_degree_nodes, label⟩
  | _ => .error (.typeError "Key Regulator bin width should be an integer.")

/-- A centrality library stub for concrete runs (all raw values 0). -/
def libZero : CentralityLib :=
  ⟨fun g => List.replicate g.n 0, fun g => List.replicate g.n 0,
   fun g => List.replicate g.n 0, fun g => List.replicate g.n 0⟩

/-- A partitioner stub returning no communities. -/
def partEmpty : Graph → Nat → List (List Nat) := fun _ _ => []

/-- A partitioner stub returning the singleton partition. -/
def partSingletons : Graph → Nat → List (List Nat) :=
  fun g _ => (List.range g.n).map (fun i => [i])

/-- One vertex with a self-loop. -/
def loopGraph : Graph := ⟨["a"], [(0, 0)]⟩

/-- The 3-vertex path a-b-c (acyclic, 2 edges). -/
def pathGraph3 : Graph := ⟨["a", "b", "c"], [(0, 1), (1, 2)]⟩

/-- A single isolated labelled vertex. -/
def oneVertexGraph : Graph := ⟨["a"], []⟩

/-- The triangle on three vertices. -/
def triangleGraph : Graph := ⟨["a", "b", "c"], [(0, 1), (1, 2), (0, 2)]⟩

/-- Fresh accumulators. -/
def emptySt : St := ⟨[], [], [], []⟩

/-- A configuration with no key regulators and the default minimum 3. -/
def cfg3 : Config := ⟨[], 3⟩

/-- A configuration tracing the single regulator label a. -/
def cfgA : Config := ⟨["a"], 3⟩

/-- Whether `e.1` and `e.2` are in range and distinct for every edge:
the well-formedness igraph guarantees for its own edge lists, with
looplessness stated separately where a claim needs it. -/
def Graph.EdgesValid (g : Graph) : Prop :=
  ∀ e ∈ g.edges, e.1 < g.n ∧ e.2 < g.n

/-- No self-loop edge. -/
def Graph.Loopless (g : Graph) : Prop := ∀ e ∈ g.edges, e.1 ≠ e.2

/-- The partitioner interface contract (spec section 6): blocks are
pairwise disjoint, nonempty, duplicate-free sets of valid indices. -/
def ValidPartition (g : Graph) (blocks : List (List Nat)) : Prop :=
  blocks.Pairwise (fun a b => ∀ x ∈ a, x ∉ b) ∧
    ∀ b ∈ blocks, b ≠ [] ∧ b.Nodup ∧ ∀ x ∈ b, x < g.n

/-- An always-valid partitioner. -/
def ValidPartitioner (P : Graph → Nat → List (List Nat)) : Prop :=
  ∀ g method, ValidPartition g (P g method)

/-- A measure on depth arguments that grows strictly along every
parent-to-child step of the recursion: None (the root) measures 0, a
lineage string measures its length plus one. -/
def depthMeasure : Option String → Nat
  | Option.none => 0
  | some s => s.length + 1

/-! Helper lemmas. -/

theorem range_getD (n i d : Nat) (h : i < n) : (List.range n).getD i d = i := by
  rw [List.getD_eq_getElem?_getD, List.getElem?_range h]; rfl

theorem getD_mem {α : Type} (l : List α) (i : Nat) (d : α) (h : i < l.length) :
    l.getD i d ∈ l := by
  rw [List.getD_eq_getElem?_getD, List.getElem?_eq_getElem h]
  exact List.getElem_mem h

theorem degreeList_length (g : Graph) : g.degreeList.length = g.n := by
  simp [Graph.degreeList]

theorem degreeList_getD (g : Graph) (v : Nat) (h : v < g.n) :
    g.degreeList.getD v 0 = g.degree v := by
  rw [Graph.degreeList, List.getD_eq_getElem?_getD, List.getElem?_map, List.getElem?_range h]
  rfl

theorem lookup_map_upd_self {κ α : Type} [DecidableEq κ] [BEq κ] [LawfulBEq κ]
    (l : List (κ × α)) (k : κ) (v : α) (h : l.any (fun p => p.1 = k) = true) :
    (l.map (fun p => if p.1 = k then (k, v) else p)).lookup k = some v := by
  induction l with
  | nil => simp at h
  | cons p t ih =>
    by_cases hp : p.1 = k
    · rw [List.map_cons, if_pos hp]
      simp [List.lookup]
    · rw [List.map_cons, if_neg hp]
      have hk : (k == p.1) = false := beq_eq_false_iff_ne.mpr (fun he => hp he.symm)
      rw [List.lookup, hk]
      have ht : t.any (fun p => p.1 = k) = true := by
        simpa [List.any_cons, hp] using h
      exact ih ht

theorem lookup_append_upd_self {κ α : Type} [DecidableEq κ] [BEq κ] [LawfulBEq κ]
    (l : List (κ × α)) (k : κ) (v : α) (h : ∀ p ∈ l, ¬(p.1 = k)) :
    (l ++ [(k, v)]).lookup k = some v := by
  induction l with
  | nil => simp [List.lookup]
  | cons p t ih =>
    have hp : ¬(p.1 = k) := h p (List.mem_cons_self p t)
    have hk : (k == p.1) = false := beq_eq_false_iff_ne.mpr (fun he => hp he.symm)
    rw [List.cons_append, List.lookup, hk]
    exact ih (fun q hq => h q (List.mem_cons_of_mem p hq))

theorem lookup_updAssoc_self {κ α : Type} [DecidableEq κ] [BEq κ] [LawfulBEq κ]
    (l : List (κ × α)) (k : κ) (v : α) : (updAssoc l k v).lookup k = some v := by
  unfold updAssoc
  by_cases h : l.any (fun p => p.1 = k) = true
  · rw [if_pos h]; exact lookup_map_upd_self l k v h
  · rw [if_neg h]
    refine lookup_append_upd_self l k v ?_
    intro p hp hpk
    exact h (List.any_eq_true.mpr ⟨p, hp, by simp [hpk]⟩)

theorem lookup_map_upd_ne {κ α : Type} [DecidableEq κ] [BEq κ] [LawfulBEq κ]
    (l : List (κ × α)) (k k2 : κ) (v : α) (hne : k2 ≠ k) :
    (l.map (fun p => if p.1 = k then (k, v) else p)).lookup k2 = l.lookup k2 := by
  induction l with
  | nil => simp
  | cons p t ih =>
    by_cases hp : p.1 = k
    · rw [List.map_cons, if_pos hp]
      have h1 : (k2 == k) = false := beq_eq_false_iff_ne.mpr hne
      have h2 : (k2 == p.1) = false := beq_eq_false_iff_ne.mpr (by rw [hp]; exact hne)
      rw [List.lookup, List.lookup, h1, h2, ih]
    · rw [List.map_cons, if_neg hp]
      rw [List.lookup, List.lookup]
      cases hk : (k2 == p.1) with
      | true => rfl
      | false => exact ih

theorem lookup_append_one_ne {κ α : Type} [DecidableEq κ] [BEq κ] [LawfulBEq κ]
    (l : List (κ × α)) (k k2 : κ) (v : α) (hne : k2 ≠ k) :
    (l ++ [(k, v)]).lookup k2 = l.lookup k2 := by
  induction l with
  | nil =>
    have h1 : (k2 == k) = false := beq_eq_false_iff_ne.mpr hne
    simp [List.lookup, h1]
  | cons p t ih =>
    rw [List.cons_append, List.lookup, List.lookup]
    cases hk : (k2 == p.1) with
    | true => rfl
    | false => exact ih

theorem lookup_updAssoc_ne {κ α : Type} [DecidableEq κ] [BEq κ] [LawfulBEq κ]
    (l : List (κ × α)) (k k2 : κ) (v : α) (hne : k2 ≠ k) :
    (updAssoc l k v).lookup k2 = l.lookup k2 := by
  unfold updAssoc
  by_cases h : l.any (fun p => p.1 = k) = true
  · rw [if_pos h]; exact lookup_map_upd_ne l k k2 v hne
  · rw [if_neg h]; exact lookup_append_one_ne l k k2 v hne

/-! Structural lemmas about the recursion. -/

theorem findRec_succ_inv (lib : CentralityLib) (P : Graph → Nat → List (List Nat)) (cfg : Config)
    (fuel : Nat) (g : Graph) (depth : Option String) (method : Nat) (st : St) (t : TreeNode)
    (st2 : St)
    (h : find_communities_recursive lib P cfg (fuel + 1) g depth method st = Except.ok (t, st2)) :
    ∃ props,
      find_topological_and_centrality_properties lib g
          ((key_reg_vertices cfg g).map (fun p => p.1)) = some props ∧
      ((g.has_cycles = false ∧ t = (node_of cfg g depth props).setIsLeaf ∧
          st2 = record_trace cfg g depth (record_subgraph depth g st)) ∨
       (g.has_cycles = true ∧ (g.n : Int) ≤ cfg.subgraph_min_vertices ∧ 1 < g.edgeLabels.length ∧
          t = (node_of cfg g depth props).setIsLeaf ∧
          st2 = { record_trace cfg g depth (record_subgraph depth g st) with
                    leaf_communities_edgelist :=
                      updAssoc (record_trace cfg g depth
                        (record_subgraph depth g st)).leaf_communities_edgelist depth
                        g.edgeLabels }) ∨
       (g.has_cycles = true ∧ (g.n : Int) ≤ cfg.subgraph_min_vertices ∧
          ¬(1 < g.edgeLabels.length) ∧ t = node_of cfg g depth props ∧
          st2 = record_trace cfg g depth (record_subgraph depth g st)) ∨
       (g.has_cycles = true ∧ ¬((g.n : Int) ≤ cfg.subgraph_min_vertices) ∧
          ∃ cts st3,
            find_communities_children (find_communities_recursive lib P cfg fuel)
                (pyRemoveFull g.n (P g method)) 1 g depth method
                (record_root_edges depth g
                  (record_trace cfg g depth (record_subgraph depth g st))) =
              Except.ok (cts, st3) ∧
            t = (node_of cfg g depth props).setChildren cts ∧ st2 = st3)) := by
  rw [find_communities_recursive] at h
  cases hp : find_topological_and_centrality_properties lib g
      ((key_reg_vertices cfg g).map (fun p => p.1)) with
  | none => rw [hp] at h; cases h
  | some props =>
    rw [hp] at h
    dsimp only at h
    refine ⟨props, rfl, ?_⟩
    by_cases hc : g.has_cycles = false
    · rw [if_pos hc] at h
      cases h
      exact Or.inl ⟨hc, rfl, rfl⟩
    · rw [if_neg hc] at h
      have hc2 : g.has_cycles = true := by
        cases hb : g.has_cycles
        · exact absurd hb hc
        · rfl
      by_cases hm : (g.n : Int) ≤ cfg.subgraph_min_vertices
      · rw [if_pos hm] at h
        by_cases he : 1 < g.edgeLabels.length
        · rw [if_pos he] at h
          cases h
          exact Or.inr (Or.inl ⟨hc2, hm, he, rfl, rfl⟩)
        · rw [if_neg he] at h
          cases h
          exact Or.inr (Or.inr (Or.inl ⟨hc2, hm, he, rfl, rfl⟩))
      · rw [if_neg hm] at h
        cases hch : find_communities_children (find_communities_recursive lib P cfg fuel)
            (pyRemoveFull g.n (P g method)) 1 g depth method
            (record_root_edges depth g
              (record_trace cfg g depth (record_subgraph depth g st))) with
        | error e => rw [hch] at h; cases h
        | ok q =>
          obtain ⟨cts, st3⟩ := q
          rw [hch] at h
          cases h
          exact Or.inr (Or.inr (Or.inr ⟨hc2, hm, cts, st2, rfl, rfl, rfl⟩))

@[simp] theorem record_subgraph_key_reg_trace (d : Option String) (g : Graph) (st : St) :
    (record_subgraph d g st).key_reg_trace = st.key_reg_trace := by
  cases d <;> rfl

@[simp] theorem record_subgraph_leaf (d : Option String) (g : Graph) (st : St) :
    (record_subgraph d g st).leaf_communities_edgelist = st.leaf_communities_edgelist := by
  cases d <;> rfl

@[simp] theorem record_subgraph_root (d : Option String) (g : Graph) (st : St) :
    (record_subgraph d g st).root_communities_edgelist = st.root_communities_edgelist := by
  cases d <;> rfl

@[simp] theorem record_trace_leaf (cfg : Config) (g : Graph) (d : Option String) (st : St) :
    (record_trace cfg g d st).leaf_communities_edgelist = st.leaf_communities_edgelist := rfl

@[simp] theorem record_trace_root (cfg : Config) (g : Graph) (d : Option String) (st : St) :
    (record_trace cfg g d st).root_communities_edgelist = st.root_communities_edgelist := rfl

@[simp] theorem record_trace_subgraphs (cfg : Config) (g : Graph) (d : Option String) (st : St) :
    (record_trace cfg g d st).communities_subgraph_inclusive =
      st.communities_subgraph_inclusive := rfl

@[simp] theorem record_root_edges_key_reg_trace (d : Option String) (g : Graph) (st : St) :
    (record_root_edges d g st).key_reg_trace = st.key_reg_trace := by
  cases d <;> rfl

@[simp] theorem record_root_edges_leaf (d : Option String) (g : Graph) (st : St) :
    (record_root_edges d g st).leaf_communities_edgelist = st.leaf_communities_edgelist := by
  cases d <;> rfl

@[simp] theorem record_root_edges_subgraphs (d : Option String) (g : Graph) (st : St) :
    (record_root_edges d g st).communities_subgraph_inclusive =
      st.communities_subgraph_inclusive := by
  cases d <;> rfl

@[simp] theorem setIsLeaf_is_leaf (t : TreeNode) : t.setIsLeaf.is_leaf_node = true := by
  cases t; rfl

@[simp] theorem setIsLeaf_lineage (t : TreeNode) : t.setIsLeaf.lineage = t.lineage := by
  cases t; rfl

@[simp] theorem setIsLeaf_current_depth (t : TreeNode) :
    t.setIsLeaf.current_depth = t.current_depth := by
  cases t; rfl

@[simp] theorem setIsLeaf_num_vertices (t : TreeNode) :
    t.setIsLeaf.num_vertices = t.num_vertices := by
  cases t; rfl

@[simp] theorem setChildren_is_leaf (t : TreeNode) (ch : List TreeNode) :
    (t.setChildren ch).is_leaf_node = t.is_leaf_node := by
  cases t; rfl

@[simp] theorem setChildren_lineage (t : TreeNode) (ch : List TreeNode) :
    (t.setChildren ch).lineage = t.lineage := by
  cases t; rfl

@[simp] theorem setChildren_current_depth (t : TreeNode) (ch : List TreeNode) :
    (t.setChildren ch).current_depth = t.current_depth := by
  cases t; rfl

@[simp] theorem setChildren_num_vertices (t : TreeNode) (ch : List TreeNode) :
    (t.setChildren ch).num_vertices = t.num_vertices := by
  cases t; rfl

@[simp] theorem node_of_lineage (cfg : Config) (g : Graph) (depth : Option String)
    (props : List (Nat × List ℚ)) :
    (node_of cfg g depth props).lineage =
      (match depth with | Option.none => "0" | some d => d) := by
  cases depth <;> rfl

@[simp] theorem node_of_current_depth (cfg : Config) (g : Graph) (depth : Option String)
    (props : List (Nat × List ℚ)) :
    (node_of cfg g depth props).current_depth =
      countSep (match depth with | Option.none => "0" | some d => d) + 1 := by
  cases depth <;> rfl

@[simp] theorem node_of_num_vertices (cfg : Config) (g : Graph) (depth : Option String)
    (props : List (Nat × List ℚ)) :
    (node_of cfg g depth props).num_vertices = g.n := by
  cases depth <;> rfl

@[simp] theorem node_of_is_leaf (cfg : Config) (g : Graph) (depth : Option String)
    (props : List (Nat × List ℚ)) :
    (node_of cfg g depth props).is_leaf_node = false := by
  cases depth <;> rfl

theorem simpleEdges_wf (g : Graph) (hL : g.Loopless) (hV : g.EdgesValid) :
    ∀ e ∈ g.simpleEdges, e.1 ≠ e.2 ∧ e.1 < g.n ∧ e.2 < g.n := by
  intro e he
  have hm : e ∈ g.edges.map normEdge := List.mem_dedup.mp he
  obtain ⟨e0, he0, rfl⟩ := List.mem_map.mp hm
  obtain ⟨h1, h2⟩ := hV e0 he0
  have hne := hL e0 he0
  unfold normEdge
  by_cases hle : e0.1 ≤ e0.2
  · rw [if_pos hle]; exact ⟨hne, h1, h2⟩
  · rw [if_neg hle]; exact ⟨fun hx => hne hx.symm, h2, h1⟩

theorem cycleLoop_min_length (n : Nat) (es : List (Nat × Nat))
    (hwf : ∀ e ∈ es, e.1 ≠ e.2 ∧ e.1 < n ∧ e.2 < n)
    (hc : cycleLoop (List.range n) es = true) : 2 ≤ es.length := by
  match es with
  | [] => simp [cycleLoop] at hc
  | [e] =>
    obtain ⟨hne, h1, h2⟩ := hwf e (List.mem_singleton_self e)
    rw [cycleLoop] at hc
    rw [if_neg hne] at hc
    dsimp only at hc
    rw [range_getD n e.1 e.1 h1, range_getD n e.2 e.2 h2] at hc
    rw [if_neg hne] at hc
    simp [cycleLoop] at hc
  | e1 :: e2 :: rest => simp

theorem hasCycles_two_edges (g : Graph) (hL : g.Loopless) (hV : g.EdgesValid)
    (hc : g.has_cycles = true) : 2 ≤ g.edges.length := by
  have h1 : 2 ≤ g.simpleEdges.length :=
    cycleLoop_min_length g.n g.simpleEdges (simpleEdges_wf g hL hV) hc
  have h2 : g.simpleEdges.length ≤ (g.edges.map normEdge).length :=
    (List.dedup_sublist _).length_le
  rw [List.length_map] at h2
  omega

/-- Claim C3, amended.  For every node the recursion produces (each node is
the root of its own recursive call), the stored depth equals the number of
lineage separators plus 1; consequently the root (lineage "0") stores
depth 1, not 0: src line 222 overwrites the 0 that parse wrote. -/
theorem c3_amended_theorem (lib : CentralityLib) (P : Graph → Nat → List (List Nat))
    (cfg : Config) (fuel : Nat) (g : Graph) (depth : Option String) (method : Nat) (st : St)
    (t : TreeNode) (st2 : St)
    (h : find_communities_recursive lib P cfg fuel g depth method st = Except.ok (t, st2)) :
    t.current_depth = countSep t.lineage + 1 ∧
      (depth = Option.none → t.lineage = "0" ∧ t.current_depth = 1) := by
  cases fuel with
  | zero => rw [find_communities_recursive] at h; cases h
  | succ fuel =>
    obtain ⟨props, hp, hbr⟩ := findRec_succ_inv lib P cfg fuel g depth method st t st2 h
    rcases hbr with ⟨_, rfl, _⟩ | ⟨_, _, _, rfl, _⟩ | ⟨_, _, _, rfl, _⟩ | ⟨_, _, _, _, _, rfl, _⟩ <;>
      cases depth <;> simp <;> decide

/-- Claim C3, counterexample.  A concrete root run yields lineage "0" with
stored depth 1, refuting the claim that the root node has depth 0. -/
theorem c3_counterexample :
    (find_communities_recursive libZero partEmpty cfg3 2 pathGraph3 Option.none 0
        emptySt).toOption.map (fun p => (p.1.lineage, p.1.current_depth)) = some ("0", 1) := rfl

/-- Claim C3, witness: the amended theorem applied to a concrete run on the
3-vertex path graph. -/
theorem c3_witness :
    (TreeNode.mk "root" "0" 1 [] 3 false true []).current_depth =
        countSep (TreeNode.mk "root" "0" 1 [] 3 false true []).lineage + 1 ∧
      ((Option.none : Option String) = Option.none →
        (TreeNode.mk "root" "0" 1 [] 3 false true []).lineage = "0" ∧
          (TreeNode.mk "root" "0" 1 [] 3 false true []).current_depth = 1) :=
  c3_amended_theorem libZero partEmpty cfg3 2 pathGraph3 Option.none 0 emptySt
    (TreeNode.mk "root" "0" 1 [] 3 false true []) emptySt rfl

/-- Claim C1, amended.  For every node the recursion produces from a graph
without self-loops and with in-range edge endpoints, the is_leaf flag is
true iff the node subgraph is acyclic (stop condition A) or its vertex
count is at most the configured minimum (stop condition B): a cycle in a
loopless graph forces at least two edges, so the edge-count guard of src
line 236 cannot block the flag. -/
theorem c1_amended_theorem (lib : CentralityLib) (P : Graph → Nat → List (List Nat))
    (cfg : Config) (fuel : Nat) (g : Graph) (depth : Option String) (method : Nat) (st : St)
    (t : TreeNode) (st2 : St) (hL : g.Loopless) (hV : g.EdgesValid)
    (h : find_communities_recursive lib P cfg fuel g depth method st = Except.ok (t, st2)) :
    t.is_leaf_node = true ↔
      (g.has_cycles = false ∨ (g.n : Int) ≤ cfg.subgraph_min_vertices) := by
  cases fuel with
  | zero => rw [find_communities_recursive] at h; cases h
  | succ fuel =>
    obtain ⟨props, hp, hbr⟩ := findRec_succ_inv lib P cfg fuel g depth method st t st2 h
    rcases hbr with ⟨hc, rfl, _⟩ | ⟨hc, hm, _, rfl, _⟩ | ⟨hc, hm, he, rfl, _⟩ |
        ⟨hc, hm, cts, st3, _, rfl, _⟩
    · simp [hc]
    · simp [hm]
    · exfalso
      apply he
      have h2 := hasCycles_two_edges g hL hV hc
      have : g.edgeLabels.length = g.edges.length := by
        simp [Graph.edgeLabels]
      omega
    · simp [hc, hm]

/-- Claim C1, counterexample.  A single vertex with a self-loop is cyclic
with vertex count below the minimum, yet its node is not marked as a leaf,
because the one-edge list fails the more-than-one-edge guard. -/
theorem c1_counterexample :
    loopGraph.has_cycles = true ∧ (loopGraph.n : Int) ≤ cfg3.subgraph_min_vertices ∧
      (find_communities_recursive libZero partEmpty cfg3 2 loopGraph Option.none 0
          emptySt).toOption.map (fun p => p.1.is_leaf_node) = some false :=
  ⟨by decide, by decide, rfl⟩

/-- Claim C1, witness: the amended theorem applied to a concrete run on the
3-vertex path graph (acyclic, so a leaf). -/
theorem c1_witness :
    ((TreeNode.mk "root" "0" 1 [] 3 false true []).is_leaf_node = true ↔
      (pathGraph3.has_cycles = false ∨ (pathGraph3.n : Int) ≤ cfg3.subgraph_min_vertices)) :=
  c1_amended_theorem libZero partEmpty cfg3 2 pathGraph3 Option.none 0 emptySt
    (TreeNode.mk "root" "0" 1 [] 3 false true []) emptySt
    (show ∀ e ∈ pathGraph3.edges, e.1 ≠ e.2 by decide)
    (show ∀ e ∈ pathGraph3.edges, e.1 < pathGraph3.n ∧ e.2 < pathGraph3.n by decide) rfl

theorem depthMeasure_child (depth : Option String) (idx : Nat) :
    depthMeasure depth + 1 ≤ depthMeasure (some (child_depth depth idx)) := by
  cases depth with
  | none => simp [depthMeasure]
  | some d =>
    simp only [depthMeasure, child_depth, String.length_append]
    have : ("_" : String).length = 1 := rfl
    omega

theorem children_leaf_lookup (rec : Graph → Option String → Nat → St → Except DErr (TreeNode × St))
    (method : Nat) (g : Graph) (depth : Option String)
    (Hrec : ∀ sub d2 stx out, rec sub d2 method stx = Except.ok out →
      ∀ K, depthMeasure K < depthMeasure d2 →
        out.2.leaf_communities_edgelist.lookup K = stx.leaf_communities_edgelist.lookup K) :
    ∀ blocks idx st cts st2,
      find_communities_children rec blocks idx g depth method st = Except.ok (cts, st2) →
      ∀ K, depthMeasure K ≤ depthMeasure depth →
        st2.leaf_communities_edgelist.lookup K = st.leaf_communities_edgelist.lookup K := by
  intro blocks
  induction blocks with
  | nil =>
    intro idx st cts st2 h K hK
    rw [find_communities_children.eq_def] at h
    cases h
    rfl
  | cons vs rest ih =>
    intro idx st cts st2 h K hK
    rw [find_communities_children.eq_def] at h
    dsimp only at h
    cases h1 : rec (g.inducedSubgraph vs) (some (child_depth depth idx)) method st with
    | error e => rw [h1] at h; cases h
    | ok q =>
      obtain ⟨ct, st1⟩ := q
      rw [h1] at h
      dsimp only at h
      cases h2 : find_communities_children rec rest (idx + 1) g depth method st1 with
      | error e => rw [h2] at h; cases h
      | ok q2 =>
        obtain ⟨cts2, stf⟩ := q2
        rw [h2] at h
        cases h
        have step1 : st1.leaf_communities_edgelist.lookup K =
            st.leaf_communities_edgelist.lookup K := by
          refine Hrec _ _ _ (ct, st1) h1 K ?_
          have := depthMeasure_child depth idx
          omega
        have step2 := ih (idx + 1) st1 cts2 st2 h2 K hK
        rw [step2, step1]

theorem findRec_leaf_lookup (lib : CentralityLib) (P : Graph → Nat → List (List Nat))
    (cfg : Config) :
    ∀ fuel g depth method st out,
      find_communities_recursive lib P cfg fuel g depth method st = Except.ok out →
      ∀ K, depthMeasure K < depthMeasure depth →
        out.2.leaf_communities_edgelist.lookup K = st.leaf_communities_edgelist.lookup K := by
  intro fuel
  induction fuel with
  | zero =>
    intro g depth method st out h
    rw [find_communities_recursive] at h
    cases h
  | succ fuel ih =>
    intro g depth method st out h K hK
    obtain ⟨t, st2⟩ := out
    obtain ⟨props, hp, hbr⟩ := findRec_succ_inv lib P cfg fuel g depth method st t st2 h
    rcases hbr with ⟨_, _, rfl⟩ | ⟨_, _, _, _, rfl⟩ | ⟨_, _, _, _, rfl⟩ |
        ⟨_, _, cts, st3, hch, _, hst⟩
    · simp
    · have hKne : K ≠ depth := by
        intro he
        rw [he] at hK
        omega
      dsimp only
      rw [lookup_updAssoc_ne _ depth K _ hKne]
      simp
    · simp
    · have hpres := children_leaf_lookup (find_communities_recursive lib P cfg fuel) method g depth
        (fun sub d2 stx o ho K2 hK2 => ih sub d2 method stx o ho K2 hK2)
        (pyRemoveFull g.n (P g method)) 1
        (record_root_edges depth g (record_trace cfg g depth (record_subgraph depth g st)))
        cts st3 hch K (Nat.le_of_lt hK)
      rw [hst, hpres]
      simp

/-- Claim C9, amended.  A recursion call contributes a LeafCommunityMap
entry, keyed by its raw depth argument, exactly when its subgraph is
cyclic, has at most the minimum number of vertices, and has more than one
edge (stop condition B with the edge guard); in that case the node is a
leaf.  Otherwise the call leaves the map entry at its own key untouched:
descendants write only strictly deeper keys.  Acyclic leaves never
contribute, refuting the claim that every small leaf with more than one
edge gets an entry. -/
theorem c9_amended_theorem (lib : CentralityLib) (P : Graph → Nat → List (List Nat))
    (cfg : Config) (fuel : Nat) (g : Graph) (depth : Option String) (method : Nat) (st : St)
    (t : TreeNode) (st2 : St)
    (h : find_communities_recursive lib P cfg fuel g depth method st = Except.ok (t, st2)) :
    ((g.has_cycles = true ∧ (g.n : Int) ≤ cfg.subgraph_min_vertices ∧
        1 < g.edgeLabels.length) →
      st2.leaf_communities_edgelist = updAssoc st.leaf_communities_edgelist depth g.edgeLabels ∧
        t.is_leaf_node = true) ∧
    (¬(g.has_cycles = true ∧ (g.n : Int) ≤ cfg.subgraph_min_vertices ∧
        1 < g.edgeLabels.length) →
      st2.leaf_communities_edgelist.lookup depth = st.leaf_communities_edgelist.lookup depth) := by
  cases fuel with
  | zero => rw [find_communities_recursive] at h; cases h
  | succ fuel =>
    obtain ⟨props, hp, hbr⟩ := findRec_succ_inv lib P cfg fuel g depth method st t st2 h
    rcases hbr with ⟨hc, rfl, rfl⟩ | ⟨hc, hm, he, rfl, rfl⟩ | ⟨hc, hm, he, rfl, rfl⟩ |
        ⟨hc, hm, cts, st3, hch, htt, hst⟩
    · constructor
      · rintro ⟨hc2, -, -⟩
        rw [hc] at hc2
        cases hc2
      · intro _; simp
    · constructor
      · intro _
        refine ⟨?_, by simp⟩
        simp
      · intro hn
        exact absurd ⟨hc, hm, he⟩ hn
    · constructor
      · rintro ⟨-, -, he2⟩
        exact absurd he2 he
      · intro _; simp
    · constructor
      · rintro ⟨-, hm2, -⟩
        exact absurd hm2 hm
      · intro _
        have hpres := children_leaf_lookup (find_communities_recursive lib P cfg fuel) method
          g depth
          (fun sub d2 stx o ho K2 hK2 =>
            findRec_leaf_lookup lib P cfg fuel sub d2 method stx o ho K2 hK2)
          (pyRemoveFull g.n (P g method)) 1
          (record_root_edges depth g (record_trace cfg g depth (record_subgraph depth g st)))
          cts st3 hch depth (Nat.le_refl _)
        rw [hst, hpres]
        simp

/-- Claim C9, counterexample.  The 3-vertex path is a leaf with vertex
count at the minimum and two edges, yet the leaf map stays empty because
stop condition A returns before the recording line. -/
theorem c9_counterexample :
    (find_communities_recursive libZero partEmpty cfg3 2 pathGraph3 Option.none 0
        emptySt).toOption.map
        (fun p => (p.1.is_leaf_node, p.1.num_vertices, p.2.leaf_communities_edgelist)) =
      some (true, 3, []) ∧
      1 < pathGraph3.edgeLabels.length ∧
      (pathGraph3.n : Int) ≤ cfg3.subgraph_min_vertices :=
  ⟨rfl, by decide, by decide⟩

/-- Claim C9, witness: the amended theorem applied to a concrete run on the
triangle, which does qualify and records its edge list under key None. -/
theorem c9_witness :
    ((triangleGraph.has_cycles = true ∧
        (triangleGraph.n : Int) ≤ cfg3.subgraph_min_vertices ∧
        1 < triangleGraph.edgeLabels.length) →
      (⟨[], updAssoc [] Option.none triangleGraph.edgeLabels, [], []⟩ : St).leaf_communities_edgelist =
          updAssoc emptySt.leaf_communities_edgelist Option.none triangleGraph.edgeLabels ∧
        (TreeNode.mk "root" "0" 1 [] 3 false true []).is_leaf_node = true) ∧
    (¬(triangleGraph.has_cycles = true ∧
        (triangleGraph.n : Int) ≤ cfg3.subgraph_min_vertices ∧
        1 < triangleGraph.edgeLabels.length) →
      (⟨[], updAssoc [] Option.none triangleGraph.edgeLabels, [], []⟩ : St).leaf_communities_edgelist.lookup Option.none =
        emptySt.leaf_communities_edgelist.lookup Option.none) :=
  c9_amended_theorem libZero partEmpty cfg3 2 triangleGraph Option.none 0 emptySt
    (TreeNode.mk "root" "0" 1 [] 3 false true [])
    ⟨[], updAssoc [] Option.none triangleGraph.edgeLabels, [], []⟩ rfl

/-- Claim C6 (confirmed).  For every graph with fewer than 3 vertices and
every requested index list, the property computation returns the sentinel
tuple (-1,-1,-1,-1,-1,-1,-1) for each requested vertex and cannot fail. -/
theorem c6_theorem (lib : CentralityLib) (g : Graph) (vertex_indices : List Nat)
    (h : g.n < 3) :
    find_topological_and_centrality_properties lib g vertex_indices =
      some (vertex_indices.map (fun i => (i, [-1, -1, -1, -1, -1, -1, -1]))) := by
  simp [find_topological_and_centrality_properties, h]

/-- Claim C6, witness: the theorem applied to the one-vertex graph with an
arbitrary requested index. -/
theorem c6_witness :
    oneVertexGraph.n < 3 ∧
      find_topological_and_centrality_properties libZero oneVertexGraph [5] =
        some ([5].map (fun i => (i, [-1, -1, -1, -1, -1, -1, -1]))) :=
  ⟨by decide, c6_theorem libZero oneVertexGraph [5] (by decide)⟩

theorem mapM_props_mem (lib : CentralityLib) (g : Graph) :
    ∀ (idxs : List Nat) (out : List (Nat × List ℚ)),
      idxs.mapM (fun v => (props_row lib g v).map (fun r => (v, r))) = some out →
      ∀ q ∈ out, props_row lib g q.1 = some q.2 := by
  intro idxs
  induction idxs with
  | nil =>
    intro out h q hq
    cases h
    cases hq
  | cons v rest ih =>
    intro out h q hq
    rw [List.mapM_cons] at h
    cases hv : props_row lib g v with
    | none => rw [hv] at h; cases h
    | some r =>
      rw [hv] at h
      cases hr : rest.mapM (fun v => (props_row lib g v).map (fun r => (v, r))) with
      | none => rw [hr] at h; simp at h
      | some outr =>
        rw [hr] at h
        simp only [Option.map_some, Option.pure_def, Option.bind_some] at h
        cases h
        rcases List.mem_cons.mp hq with hq1 | hq2
        · rw [hq1]; exact hv
        · exact ih outr hr q hq2

/-- Claim C7 (confirmed).  For every graph with at least 3 vertices, every
row the property computation returns divides the raw library eigenvector
and betweenness values by D = (n-1)(n-2)/2, passes closeness through
unnormalized, and reports as degree probability the number of vertices
sharing the vertex degree (itself included) divided by n. -/
theorem c7_theorem (lib : CentralityLib) (g : Graph) (idxs : List Nat)
    (out : List (Nat × List ℚ)) (v : Nat) (row : List ℚ) (h3 : 3 ≤ g.n)
    (hout : find_topological_and_centrality_properties lib g idxs = some out)
    (hrow : (v, row) ∈ out) :
    row = [
      (lib.evcent g).getD v 0 / (((g.n : ℚ) - 1) * ((g.n : ℚ) - 2) / 2),
      (lib.betweenness g).getD v 0 / (((g.n : ℚ) - 1) * ((g.n : ℚ) - 2) / 2),
      (lib.closeness g).getD v 0,
      (((List.range g.n).filter (fun j => g.degree j = g.degree v)).length : ℚ) / (g.n : ℚ),
      (lib.transitivity_local_undirected g).getD v 0,
      (((g.neighbors v).map g.degree).sum : ℚ) / ((g.neighbors v).length : ℚ),
      (g.degree v : ℚ)
    ] := by
  have hn3 : ¬(g.n < 3) := by omega
  rw [find_topological_and_centrality_properties, if_neg hn3] at hout
  have hpr : props_row lib g v = some row :=
    mapM_props_mem lib g idxs out hout (v, row) hrow
  by_cases hv : v < g.n
  · rw [props_row, if_pos hv] at hpr
    dsimp only at hpr
    by_cases hnb : (g.neighbors v).length = 0
    · rw [if_pos hnb] at hpr; cases hpr
    · rw [if_neg hnb] at hpr
      have hrow2 := (Option.some.injEq _ _).mp hpr
      rw [← hrow2]
      have hD : (((g.n - 1) * (g.n - 2) : Nat) : ℚ) = ((g.n : ℚ) - 1) * ((g.n : ℚ) - 2) := by
        have h1 : 1 ≤ g.n := by omega
        have h2 : 2 ≤ g.n := by omega
        rw [Nat.cast_mul, Nat.cast_sub h1, Nat.cast_sub h2]
        norm_num
      have hcount : g.degreeList.count (g.degreeList.getD v 0) =
          ((List.range g.n).filter (fun j => g.degree j = g.degree v)).length := by
        rw [degreeList_getD g v hv, Graph.degreeList]
        rw [List.count_eq_countP, List.countP_map, List.countP_eq_length_filter]
        congr 1
      have hlen : g.degreeList.length = g.n := degreeList_length g
      have hdeg : g.degreeList.getD v 0 = g.degree v := degreeList_getD g v hv
      rw [hD, hcount, hlen, hdeg]
  · rw [props_row, if_neg hv] at hpr
    cases hpr

/-- Claim C7, witness: the theorem applied to the middle vertex of the
3-vertex path under the all-zero centrality stub. -/
theorem c7_witness :
    (props_row libZero pathGraph3 1).getD [] = [
      (libZero.evcent pathGraph3).getD 1 0 /
        (((pathGraph3.n : ℚ) - 1) * ((pathGraph3.n : ℚ) - 2) / 2),
      (libZero.betweenness pathGraph3).getD 1 0 /
        (((pathGraph3.n : ℚ) - 1) * ((pathGraph3.n : ℚ) - 2) / 2),
      (libZero.closeness pathGraph3).getD 1 0,
      (((List.range pathGraph3.n).filter
          (fun j => pathGraph3.degree j = pathGraph3.degree 1)).length : ℚ) / (pathGraph3.n : ℚ),
      (libZero.transitivity_local_undirected pathGraph3).getD 1 0,
      (((pathGraph3.neighbors 1).map pathGraph3.degree).sum : ℚ) /
        ((pathGraph3.neighbors 1).length : ℚ),
      (pathGraph3.degree 1 : ℚ)
    ] :=
  c7_theorem libZero pathGraph3 [1] [(1, (props_row libZero pathGraph3 1).getD [])] 1
    ((props_row libZero pathGraph3 1).getD []) (by decide) rfl (List.mem_singleton_self _)

/-- Claim C10 (confirmed).  A selector that is not a string (None included)
makes parse fall back silently to the Louvain method with an empty tree
label and never raises the invalid-configuration error; only a string
outside the two recognized identifiers produces the ValueError naming the
offending value. -/
theorem c10_theorem (lib : CentralityLib) (P : Graph → Nat → List (List Nat)) (g : Graph)
    (fuel : Nat) (smv0 : Int) (smv krbw : PyVal) (v : PyVal) (hns : ∀ s, v ≠ PyVal.str s) :
    cf_dispatch v = Except.ok (0, "") ∧
    (∀ m, parse lib P g fuel smv0 smv krbw v ≠ Except.error (Err.valueError m)) ∧
    (∀ s, s ≠ "louvain" → s ≠ "leading_eigenvector" →
      cf_dispatch (PyVal.str s) =
        Except.error ("Invalid community finding algorithm " ++ s ++ ".")) := by
  have hd : cf_dispatch v = Except.ok (0, "") := by
    cases v with
    | str s => exact absurd rfl (hns s)
    | int i => rfl
    | other => rfl
  refine ⟨hd, ?_, ?_⟩
  · intro m
    cases krbw with
    | int w =>
      delta parse
      dsimp only
      rw [hd]
      dsimp only
      split <;> simp
    | str s =>
      delta parse
      dsimp only
      intro hcon
      cases hcon
    | other =>
      delta parse
      dsimp only
      intro hcon
      cases hcon
  · intro s h1 h2
    simp [cf_dispatch, h1, h2]

/-- Claim C10, witness: the theorem applied to the non-string selector on a
concrete run. -/
theorem c10_witness :
    cf_dispatch PyVal.other = Except.ok (0, "") ∧
    (∀ m, parse libZero partEmpty oneVertexGraph 2 3 PyVal.other (PyVal.int 1) PyVal.other ≠
      Except.error (Err.valueError m)) ∧
    (∀ s, s ≠ "louvain" → s ≠ "leading_eigenvector" →
      cf_dispatch (PyVal.str s) =
        Except.error ("Invalid community finding algorithm " ++ s ++ ".")) :=
  c10_theorem libZero partEmpty oneVertexGraph 2 3 PyVal.other (PyVal.int 1) PyVal.other
    (fun _ h => PyVal.noConfusion h)

/-- Claim C8, counterexample.  parse succeeds with the non-positive bin
width -1 and a string minimum_vertices, although the claim demands an
invalid-argument error for both. -/
theorem c8_counterexample :
    ¬(0 < (-1 : Int)) ∧
      (parse libZero partEmpty oneVertexGraph 2 3 (PyVal.str "not an int") (PyVal.int (-1))
          PyVal.other).toOption.isSome = true :=
  ⟨by decide, rfl⟩

/-- Claim C8, amended.  parse raises its TypeError exactly when the bin
width is not an int: every non-int value fails with the fixed message, and
every int value (positive or not, whatever minimum_vertices is) never
produces that error - positivity is not checked, and minimum_vertices
never raises. -/
theorem c8_amended_theorem (lib : CentralityLib) (P : Graph → Nat → List (List Nat)) (g : Graph)
    (fuel : Nat) (smv0 : Int) (smv cf : PyVal) (krbw : PyVal) :
    ((∀ i, krbw ≠ PyVal.int i) →
      parse lib P g fuel smv0 smv krbw cf =
        Except.error (Err.typeError "Key Regulator bin width should be an integer.")) ∧
    (∀ i m, krbw = PyVal.int i →
      parse lib P g fuel smv0 smv krbw cf ≠ Except.error (Err.typeError m)) := by
  constructor
  · intro hni
    cases krbw with
    | int i => exact absurd rfl (hni i)
    | str _ => rfl
    | other => rfl
  · rintro i m rfl
    delta parse
    dsimp only
    cases hd : cf_dispatch cf with
    | error e => simp
    | ok p =>
      obtain ⟨method, label⟩ := p
      dsimp only
      split <;> simp

/-- Claim C8, witness: the amended theorem applied at a string bin
width. -/
theorem c8_witness :
    ((∀ i, PyVal.str "x" ≠ PyVal.int i) →
      parse libZero partEmpty oneVertexGraph 2 3 PyVal.other (PyVal.str "x") PyVal.other =
        Except.error (Err.typeError "Key Regulator bin width should be an integer.")) ∧
    (∀ i m, PyVal.str "x" = PyVal.int i →
      parse libZero partEmpty oneVertexGraph 2 3 PyVal.other (PyVal.str "x") PyVal.other ≠
        Except.error (Err.typeError m)) :=
  c8_amended_theorem libZero partEmpty oneVertexGraph 2 3 PyVal.other PyVal.other
    (PyVal.str "x")

theorem insertByKey_perm (key : Nat → Nat) (x : Nat) (l : List Nat) :
    (insertByKey key x l).Perm (x :: l) := by
  induction l with
  | nil => rfl
  | cons y ys ih =>
    rw [insertByKey]
    by_cases hy : key y < key x
    · rw [if_pos hy]
      exact (ih.cons y).trans (List.Perm.swap x y ys)
    · rw [if_neg hy]

theorem sortByKey_perm (key : Nat → Nat) (l : List Nat) : (sortByKey key l).Perm l := by
  induction l with
  | nil => rfl
  | cons x xs ih =>
    rw [sortByKey]
    exact (insertByKey_perm key x (sortByKey key xs)).trans (ih.cons x)

theorem insertByKey_pairwise (key : Nat → Nat) (x : Nat) (l : List Nat)
    (hp : l.Pairwise (fun a b => key a < key b ∨ (key a = key b ∧ a < b)))
    (hx : ∀ y ∈ l, x < y) :
    (insertByKey key x l).Pairwise (fun a b => key a < key b ∨ (key a = key b ∧ a < b)) := by
  induction l with
  | nil => simp [insertByKey]
  | cons y ys ih =>
    rw [insertByKey]
    rcases List.pairwise_cons.mp hp with ⟨hyys, hys⟩
    by_cases hy : key y < key x
    · rw [if_pos hy]
      refine List.pairwise_cons.mpr ⟨?_, ih hys (fun z hz => hx z (List.mem_cons_of_mem y hz))⟩
      intro z hz
      have hz2 : z ∈ x :: ys := (insertByKey_perm key x ys).mem_iff.mp hz
      rcases List.mem_cons.mp hz2 with rfl | hz3
      · exact Or.inl hy
      · exact hyys z hz3
    · rw [if_neg hy]
      refine List.pairwise_cons.mpr ⟨?_, hp⟩
      intro z hz
      rcases List.mem_cons.mp hz with rfl | hz2
      · rcases Nat.lt_or_ge (key x) (key z) with h1 | h2
        · exact Or.inl h1
        · exact Or.inr ⟨Nat.le_antisymm (Nat.le_of_not_lt hy) h2,
            hx z (List.mem_cons_self _ _)⟩
      · have hxy : key x ≤ key y := Nat.le_of_not_lt hy
        have hyz : key y ≤ key z := by
          rcases hyys z hz2 with h1 | h2
          · exact Nat.le_of_lt h1
          · exact Nat.le_of_eq h2.1
        rcases Nat.lt_or_ge (key x) (key z) with h1 | h2
        · exact Or.inl h1
        · exact Or.inr ⟨Nat.le_antisymm (Nat.le_trans hxy hyz) h2,
            hx z (List.mem_cons_of_mem _ hz2)⟩

theorem sortByKey_pairwise (key : Nat → Nat) (l : List Nat) (hl : l.Pairwise (· < ·)) :
    (sortByKey key l).Pairwise (fun a b => key a < key b ∨ (key a = key b ∧ a < b)) := by
  induction l with
  | nil => simp [sortByKey]
  | cons x xs ih =>
    rw [sortByKey]
    rcases List.pairwise_cons.mp hl with ⟨hxxs, hxs⟩
    refine insertByKey_pairwise key x (sortByKey key xs) (ih hxs) ?_
    intro y hy
    exact hxxs y ((sortByKey_perm key xs).mem_iff.mp hy)

/-- Claim C5, amended.  For every graph and positive integer W, the
key-regulator selection (last W entries of the stable ascending sort of
vertex indices by degree) returns min(W, n) distinct valid vertices - not
always W, since the Python tail slice cannot produce more than n - and
every selected vertex compares above every unselected one: strictly higher
degree, or equal degree and larger original index. -/
theorem c5_amended_theorem (g : Graph) (w : Int) (hw : 0 < w) :
    (key_regulator_vertex_ids g w).length = min w.toNat g.n ∧
    (key_regulator_vertex_ids g w).Nodup ∧
    (∀ u ∈ key_regulator_vertex_ids g w, u < g.n) ∧
    (∀ u ∈ key_regulator_vertex_ids g w, ∀ v, v < g.n → v ∉ key_regulator_vertex_ids g w →
      g.degree v < g.degree u ∨ (g.degree v = g.degree u ∧ v < u)) := by
  set S := sortByKey (fun i => g.degreeList.getD i 0) (List.range g.n) with hSdef
  set k := S.length - w.toNat with hkdef
  have hperm : S.Perm (List.range g.n) := sortByKey_perm _ _
  have hSlen : S.length = g.n := by rw [hperm.length_eq, List.length_range]
  have hSnd : S.Nodup := hperm.nodup_iff.mpr (List.nodup_range g.n)
  have hpair := sortByKey_pairwise (fun i => g.degreeList.getD i 0) (List.range g.n)
    (List.pairwise_lt_range g.n)
  have hsel : key_regulator_vertex_ids g w = S.drop k := by
    rw [key_regulator_vertex_ids, pyTailSlice, if_pos hw]
  have hmem : ∀ u ∈ key_regulator_vertex_ids g w, u < g.n := by
    intro u hu
    rw [hsel] at hu
    exact List.mem_range.mp (hperm.mem_iff.mp ((List.drop_sublist _ _).mem hu))
  refine ⟨?_, ?_, hmem, ?_⟩
  · rw [hsel, List.length_drop, hSlen]
    omega
  · rw [hsel]
    exact hSnd.sublist (List.drop_sublist _ _)
  · intro u hu v hv hvn
    have hvS : v ∈ S := hperm.mem_iff.mpr (List.mem_range.mpr hv)
    rw [hsel] at hu hvn
    have hsplit : S.take k ++ S.drop k = S := List.take_append_drop k S
    have hvapp : v ∈ S.take k ++ S.drop k := by rw [hsplit]; exact hvS
    have hvtake : v ∈ S.take k := by
      rcases List.mem_append.mp hvapp with h1 | h2
      · exact h1
      · exact absurd h2 hvn
    have hpair2 : (S.take k ++ S.drop k).Pairwise
        (fun a b => g.degreeList.getD a 0 < g.degreeList.getD b 0 ∨
          (g.degreeList.getD a 0 = g.degreeList.getD b 0 ∧ a < b)) := by
      rw [hsplit]
      exact hpair
    have hcross := (List.pairwise_append.mp hpair2).2.2 v hvtake u hu
    have hkv : g.degreeList.getD v 0 = g.degree v := degreeList_getD g v hv
    have hku : g.degreeList.getD u 0 = g.degree u :=
      degreeList_getD g u (hmem u (by rw [hsel]; exact hu))
    rw [hkv, hku] at hcross
    exact hcross

/-- Claim C5, counterexample.  On a 1-vertex graph with W = 2 the
selection has length 1, so it does not return "exactly the W vertices". -/
theorem c5_counterexample :
    (0 : Int) < 2 ∧ (key_regulator_vertex_ids oneVertexGraph 2).length ≠ 2 := by
  constructor
  · decide
  · decide

/-- Claim C5, witness: the amended theorem applied to the triangle with
W = 2. -/
theorem c5_witness :
    (key_regulator_vertex_ids triangleGraph 2).length = min (2 : Int).toNat triangleGraph.n ∧
    (key_regulator_vertex_ids triangleGraph 2).Nodup ∧
    (∀ u ∈ key_regulator_vertex_ids triangleGraph 2, u < triangleGraph.n) ∧
    (∀ u ∈ key_regulator_vertex_ids triangleGraph 2, ∀ v, v < triangleGraph.n →
      v ∉ key_regulator_vertex_ids triangleGraph 2 →
      triangleGraph.degree v < triangleGraph.degree u ∨
        (triangleGraph.degree v = triangleGraph.degree u ∧ v < u)) :=
  c5_amended_theorem triangleGraph 2 (by decide)

theorem inducedSubgraph_n (g : Graph) (vs : List Nat) :
    (g.inducedSubgraph vs).n = vs.length := by
  simp [Graph.inducedSubgraph, Graph.n]

theorem pyRemoveLoop_sublist (n : Nat) :
    ∀ fuel l i, (pyRemoveLoop n fuel l i).Sublist l := by
  intro fuel
  induction fuel with
  | zero => intro l i; rw [pyRemoveLoop]
  | succ fuel ih =>
    intro l i
    rw [pyRemoveLoop]
    by_cases h : i < l.length
    · rw [dif_pos h]
      by_cases hx : (l.get ⟨i, h⟩).length = n
      · rw [if_pos hx]
        exact (ih (l.erase (l.get ⟨i, h⟩)) (i + 1)).trans (List.erase_sublist _ _)
      · rw [if_neg hx]
        exact ih l (i + 1)
    · rw [dif_neg h]

theorem pyRemoveLoop_no_full (n : Nat) :
    ∀ fuel l i, (∀ b ∈ l, b.length ≠ n) → pyRemoveLoop n fuel l i = l := by
  intro fuel
  induction fuel with
  | zero => intro l i _; rw [pyRemoveLoop]
  | succ fuel ih =>
    intro l i hnf
    rw [pyRemoveLoop]
    by_cases h : i < l.length
    · rw [dif_pos h]
      rw [if_neg (hnf (l.get ⟨i, h⟩) (l.get_mem i h))]
      exact ih l (i + 1) hnf
    · rw [dif_neg h]

theorem not_both_full (n : Nat) (a b : List Nat) (hd : ∀ x ∈ a, x ∉ b)
    (hna : a.Nodup) (hnb : b.Nodup) (hea : a ≠ []) (hva : ∀ x ∈ a, x < n)
    (hvb : ∀ x ∈ b, x < n) : ¬(a.length = n ∧ b.length = n) := by
  rintro ⟨hla, hlb⟩
  have hnd : (a ++ b).Nodup := List.Nodup.append hna hnb hd
  have hsub : (a ++ b) ⊆ List.range n := by
    intro x hx
    rcases List.mem_append.mp hx with h1 | h2
    · exact List.mem_range.mpr (hva x h1)
    · exact List.mem_range.mpr (hvb x h2)
  have hle := (List.subperm_of_subset hnd hsub).length_le
  rw [List.length_append, hla, hlb, List.length_range] at hle
  have hz : n = 0 := by omega
  rw [hz] at hla
  exact hea (List.eq_nil_of_length_eq_zero hla)

theorem vp_pairwise_not_both_full (g : Graph) (blocks : List (List Nat))
    (hvp : ValidPartition g blocks) :
    blocks.Pairwise (fun a b => ¬(a.length = g.n ∧ b.length = g.n)) := by
  refine hvp.1.imp_of_mem ?_
  intro a b ha hb hd
  obtain ⟨hea, hna, hva⟩ := hvp.2 a ha
  obtain ⟨heb, hnb, hvb⟩ := hvp.2 b hb
  exact not_both_full g.n a b hd hna hnb hea hva hvb

theorem vp_nodup (g : Graph) (blocks : List (List Nat)) (hvp : ValidPartition g blocks) :
    blocks.Nodup := by
  refine hvp.1.imp_of_mem ?_
  intro a b ha _ hd hab
  obtain ⟨hea, -, -⟩ := hvp.2 a ha
  rcases List.exists_mem_of_ne_nil a hea with ⟨x, hx⟩
  exact hd x hx (hab ▸ hx)

theorem vp_length_le (g : Graph) (blocks : List (List Nat)) (hvp : ValidPartition g blocks)
    (b : List Nat) (hb : b ∈ blocks) : b.length ≤ g.n := by
  obtain ⟨-, hnb, hvb⟩ := hvp.2 b hb
  have hsub : b ⊆ List.range g.n := fun x hx => List.mem_range.mpr (hvb x hx)
  have := (List.subperm_of_subset hnb hsub).length_le
  rwa [List.length_range] at this

theorem pyRemoveLoop_removes_full (n : Nat) :
    ∀ fuel l i, l.length - i ≤ fuel → l.Nodup →
      l.Pairwise (fun a b => ¬(a.length = n ∧ b.length = n)) →
      (∀ b ∈ l.take i, b.length ≠ n) →
      ∀ b ∈ pyRemoveLoop n fuel l i, b.length ≠ n := by
  intro fuel
  induction fuel with
  | zero =>
    intro l i hfu hnd hpw hpre b hb
    rw [pyRemoveLoop] at hb
    have hil : l.length ≤ i := by omega
    rw [List.take_of_length_le hil] at hpre
    exact hpre b hb
  | succ fuel ih =>
    intro l i hfu hnd hpw hpre b hb
    rw [pyRemoveLoop] at hb
    by_cases h : i < l.length
    · rw [dif_pos h] at hb
      by_cases hx : (l.get ⟨i, h⟩).length = n
      · rw [if_pos hx] at hb
        have hnof : ∀ c ∈ l.erase (l.get ⟨i, h⟩), c.length ≠ n := by
          intro c hc hcn
          have hc2 := (hnd.mem_erase_iff).mp hc
          have hsymm : Symmetric (fun a b : List Nat => ¬(a.length = n ∧ b.length = n)) :=
            fun a b hr hand => hr ⟨hand.2, hand.1⟩
          exact List.Pairwise.forall hsymm hpw hc2.2 (l.get_mem i h) hc2.1 ⟨hcn, hx⟩
        rw [pyRemoveLoop_no_full n fuel _ (i + 1) hnof] at hb
        exact hnof b hb
      · rw [if_neg hx] at hb
        refine ih l (i + 1) (by omega) hnd hpw ?_ b hb
        intro c hc
        rw [← List.take_concat_get l i h, List.concat_eq_append] at hc
        rcases List.mem_append.mp hc with h1 | h2
        · exact hpre c h1
        · rw [List.mem_singleton.mp h2]
          exact hx
    · rw [dif_neg h] at hb
      have hil : l.length ≤ i := by omega
      rw [List.take_of_length_le hil] at hpre
      exact hpre b hb

theorem pyRemoveFull_lt (g : Graph) (blocks : List (List Nat))
    (hvp : ValidPartition g blocks) :
    ∀ b ∈ pyRemoveFull g.n blocks, b.length < g.n := by
  intro b hb
  have hne : b.length ≠ g.n :=
    pyRemoveLoop_removes_full g.n blocks.length blocks 0 (by omega)
      (vp_nodup g blocks hvp) (vp_pairwise_not_both_full g blocks hvp) (by simp) b hb
  have hmem : b ∈ blocks := (pyRemoveLoop_sublist g.n blocks.length blocks 0).mem hb
  have hle := vp_length_le g blocks hvp b hmem
  omega

theorem children_no_fuelOut
    (rec : Graph → Option String → Nat → St → Except DErr (TreeNode × St))
    (g : Graph) (depth : Option String) (method : Nat) :
    ∀ blocks, (∀ b ∈ blocks, ∀ d2 stx, rec (g.inducedSubgraph b) d2 method stx ≠
        Except.error DErr.fuelOut) →
      ∀ idx st, find_communities_children rec blocks idx g depth method st ≠
        Except.error DErr.fuelOut := by
  intro blocks
  induction blocks with
  | nil =>
    intro _ idx st h
    rw [find_communities_children.eq_def] at h
    cases h
  | cons vs rest ih =>
    intro hrec idx st h
    rw [find_communities_children.eq_def] at h
    dsimp only at h
    cases h1 : rec (g.inducedSubgraph vs) (some (child_depth depth idx)) method st with
    | error e =>
      rw [h1] at h
      cases h
      exact hrec vs (List.mem_cons_self _ _) (some (child_depth depth idx)) st h1
    | ok q =>
      obtain ⟨ct, st1⟩ := q
      rw [h1] at h
      dsimp only at h
      cases h2 : find_communities_children rec rest (idx + 1) g depth method st1 with
      | error e =>
        rw [h2] at h
        cases h
        exact ih (fun b hb => hrec b (List.mem_cons_of_mem _ hb)) (idx + 1) st1 h2
      | ok q2 =>
        obtain ⟨cts2, stf⟩ := q2
        rw [h2] at h
        cases h

theorem findRec_no_fuelOut (lib : CentralityLib) (P : Graph → Nat → List (List Nat))
    (cfg : Config) (hP : ValidPartitioner P) :
    ∀ fuel g depth method st, g.n < fuel →
      find_communities_recursive lib P cfg fuel g depth method st ≠
        Except.error DErr.fuelOut := by
  intro fuel
  induction fuel with
  | zero => intro g depth method st hlt; omega
  | succ fuel ih =>
    intro g depth method st hlt h
    rw [find_communities_recursive] at h
    cases hp : find_topological_and_centrality_properties lib g
        ((key_reg_vertices cfg g).map (fun p => p.1)) with
    | none => rw [hp] at h; cases h
    | some props =>
      rw [hp] at h
      dsimp only at h
      by_cases hc : g.has_cycles = false
      · rw [if_pos hc] at h; cases h
      · rw [if_neg hc] at h
        by_cases hm : (g.n : Int) ≤ cfg.subgraph_min_vertices
        · rw [if_pos hm] at h
          by_cases he : 1 < g.edgeLabels.length
          · rw [if_pos he] at h; cases h
          · rw [if_neg he] at h; cases h
        · rw [if_neg hm] at h
          cases hch : find_communities_children (find_communities_recursive lib P cfg fuel)
              (pyRemoveFull g.n (P g method)) 1 g depth method
              (record_root_edges depth g
                (record_trace cfg g depth (record_subgraph depth g st))) with
          | error e =>
            rw [hch] at h
            cases h
            refine children_no_fuelOut (find_communities_recursive lib P cfg fuel) g depth method
              (pyRemoveFull g.n (P g method)) ?_ 1
              (record_root_edges depth g
                (record_trace cfg g depth (record_subgraph depth g st))) hch
            intro b hb d2 stx
            have hblt : b.length < g.n := pyRemoveFull_lt g (P g method) (hP g method) b hb
            refine ih (g.inducedSubgraph b) d2 method stx ?_
            rw [inducedSubgraph_n]
            omega
          | ok q =>
            rw [hch] at h
            obtain ⟨cts, stf⟩ := q
            cases h

/-- Claim C4 (confirmed).  Under the partitioner interface contract
(pairwise disjoint, nonempty, duplicate-free blocks of valid indices),
the whole-graph filter of src lines 252-253 leaves only blocks strictly
smaller than the current graph, so every recursive call operates on
strictly fewer vertices, and a fuel budget above the root vertex count is
never exhausted: the recursion terminates, bounded by the root size. -/
theorem c4_theorem (lib : CentralityLib) (P : Graph → Nat → List (List Nat)) (cfg : Config)
    (hP : ValidPartitioner P) :
    (∀ g method b, b ∈ pyRemoveFull g.n (P g method) →
      b.length < g.n ∧ (g.inducedSubgraph b).n < g.n) ∧
    (∀ fuel g depth method st, g.n < fuel →
      find_communities_recursive lib P cfg fuel g depth method st ≠
        Except.error DErr.fuelOut) := by
  constructor
  · intro g method b hb
    have := pyRemoveFull_lt g (P g method) (hP g method) b hb
    refine ⟨this, ?_⟩
    rw [inducedSubgraph_n]
    omega
  · exact findRec_no_fuelOut lib P cfg hP

theorem partEmpty_valid : ValidPartitioner partEmpty := by
  intro g method
  constructor
  · simp [partEmpty]
  · simp [partEmpty]

/-- Claim C4, witness: the theorem applied to the empty partitioner, which
trivially satisfies the contract. -/
theorem c4_witness :
    (∀ g method b, b ∈ pyRemoveFull g.n (partEmpty g method) →
      b.length < g.n ∧ (g.inducedSubgraph b).n < g.n) ∧
    (∀ fuel g depth method st, g.n < fuel →
      find_communities_recursive libZero partEmpty cfg3 fuel g depth method st ≠
        Except.error DErr.fuelOut) :=
  c4_theorem libZero partEmpty cfg3 partEmpty_valid

theorem getD_eq_get {α : Type} (l : List α) (i : Nat) (d : α) (h : i < l.length) :
    l.getD i d = l.get ⟨i, h⟩ := by
  rw [List.getD_eq_getElem?_getD, List.getElem?_eq_getElem h]
  rfl

theorem foldl_updAssoc_lookup (depth : Option String) :
    ∀ (krv : List (Nat × String)) (tr : List (String × Option String)) (x : String),
      (krv.foldl (fun tr p => updAssoc tr p.2 depth) tr).lookup x =
        if x ∈ krv.map (fun p => p.2) then some depth else tr.lookup x := by
  intro krv
  induction krv with
  | nil => intro tr x; simp
  | cons p rest ih =>
    intro tr x
    rw [List.foldl_cons, ih]
    by_cases hx : x = p.2
    · by_cases hr : x ∈ rest.map (fun p => p.2)
      · rw [if_pos hr, if_pos (by simp [hx, hr])]
      · rw [if_neg hr, if_pos (by simp [hx]), hx]
        exact lookup_updAssoc_self tr p.2 depth
    · have hmm : (x ∈ (p :: rest).map (fun p => p.2)) ↔ (x ∈ rest.map (fun p => p.2)) := by
        simp [List.map_cons, hx]
      by_cases hr : x ∈ rest.map (fun p => p.2)
      · rw [if_pos hr, if_pos (hmm.mpr hr)]
      · rw [if_neg hr, if_neg (fun hc => hr (hmm.mp hc))]
        exact lookup_updAssoc_ne tr p.2 x depth hx

theorem mem_krv_names (cfg : Config) (g : Graph) (x : String) :
    (x ∈ (key_reg_vertices cfg g).map (fun p => p.2)) ↔
      (x ∈ g.labels ∧ x ∈ cfg.key_regulators) := by
  constructor
  · intro hx
    obtain ⟨q, hq, rfl⟩ := List.mem_map.mp hx
    obtain ⟨i, hi, hif⟩ := List.mem_filterMap.mp hq
    by_cases hc : (g.labels.getD i "") ∈ cfg.key_regulators
    · rw [if_pos hc] at hif
      cases hif
      have hin : i < g.labels.length := List.mem_range.mp hi
      exact ⟨getD_mem g.labels i "" hin, hc⟩
    · rw [if_neg hc] at hif
      cases hif
  · rintro ⟨hxg, hxr⟩
    obtain ⟨⟨i, hi⟩, hget⟩ := List.mem_iff_get.mp hxg
    refine List.mem_map.mpr ⟨(i, x), ?_, rfl⟩
    refine List.mem_filterMap.mpr ⟨i, List.mem_range.mpr hi, ?_⟩
    have hgd : g.labels.getD i "" = x := by
      rw [getD_eq_get g.labels i "" hi]
      exact hget
    rw [hgd, if_pos hxr]

theorem record_trace_lookup (cfg : Config) (g : Graph) (depth : Option String) (st : St)
    (x : String) :
    (record_trace cfg g depth st).key_reg_trace.lookup x =
      if x ∈ g.labels ∧ x ∈ cfg.key_regulators then some depth
      else st.key_reg_trace.lookup x := by
  rw [record_trace]
  dsimp only
  rw [foldl_updAssoc_lookup depth (key_reg_vertices cfg g) st.key_reg_trace x]
  by_cases hx : x ∈ g.labels ∧ x ∈ cfg.key_regulators
  · rw [if_pos ((mem_krv_names cfg g x).mpr hx), if_pos hx]
  · rw [if_neg (fun hc => hx ((mem_krv_names cfg g x).mp hc)), if_neg hx]

theorem inducedSubgraph_labels_subset (g : Graph) (vs : List Nat)
    (hv : ∀ i ∈ vs, i < g.n) :
    ∀ x ∈ (g.inducedSubgraph vs).labels, x ∈ g.labels := by
  intro x hx
  obtain ⟨i, hi, rfl⟩ := List.mem_map.mp hx
  exact getD_mem g.labels i "" (hv i hi)

theorem inducedSubgraph_labels_nodup (g : Graph) (vs : List Nat) (hnd : g.labels.Nodup)
    (hv : ∀ i ∈ vs, i < g.n) (hvnd : vs.Nodup) :
    (g.inducedSubgraph vs).labels.Nodup := by
  refine List.Nodup.map_on ?_ hvnd
  intro i hi j hj hij
  have hi2 : i < g.labels.length := hv i hi
  have hj2 : j < g.labels.length := hv j hj
  rw [getD_eq_get g.labels i "" hi2, getD_eq_get g.labels j "" hj2] at hij
  have := List.nodup_iff_injective_get.mp hnd hij
  exact congrArg Fin.val this

theorem induced_labels_disjoint (g : Graph) (hnd : g.labels.Nodup) (a b : List Nat)
    (hd : ∀ i ∈ a, i ∉ b) (hva : ∀ i ∈ a, i < g.n) (hvb : ∀ i ∈ b, i < g.n) (x : String)
    (hxa : x ∈ (g.inducedSubgraph a).labels) (hxb : x ∈ (g.inducedSubgraph b).labels) :
    False := by
  obtain ⟨i, hi, hix⟩ := List.mem_map.mp hxa
  obtain ⟨j, hj, hjx⟩ := List.mem_map.mp hxb
  have hi2 : i < g.labels.length := hva i hi
  have hj2 : j < g.labels.length := hvb j hj
  rw [getD_eq_get g.labels i "" hi2] at hix
  rw [getD_eq_get g.labels j "" hj2] at hjx
  have hget : g.labels.get ⟨i, hi2⟩ = g.labels.get ⟨j, hj2⟩ := by rw [hix, hjx]
  have hij := List.nodup_iff_injective_get.mp hnd hget
  have : i = j := congrArg Fin.val hij
  rw [this] at hi
  exact hd j hi hj

theorem children_trace (regs : List String)
    (rec : Graph → Option String → Nat → St → Except DErr (TreeNode × St))
    (method : Nat) (g : Graph) (depth : Option String)
    (Hrec : ∀ sub d2 stx t st2,
      sub.labels.Nodup →
      rec sub d2 method stx = Except.ok (t, st2) →
      ∃ V : List (Option String × Graph),
        V.head? = some (d2, sub) ∧
        (∀ p ∈ V, ∀ x, x ∈ p.2.labels → x ∈ sub.labels) ∧
        (∀ p ∈ V.tail, depthMeasure d2 + 1 ≤ depthMeasure p.1) ∧
        (∀ x, x ∈ regs → st2.key_reg_trace.lookup x =
          ((V.filter (fun p => decide (x ∈ p.2.labels))).getLast?).elim
            (stx.key_reg_trace.lookup x) (fun q => some q.1)) ∧
        (∀ x, x ∉ regs → st2.key_reg_trace.lookup x = stx.key_reg_trace.lookup x) ∧
        (∀ x, (V.filter (fun p => decide (x ∈ p.2.labels))).Pairwise
          (fun p q => depthMeasure p.1 < depthMeasure q.1))) :
    ∀ blocks idx st cts st2,
      g.labels.Nodup →
      blocks.Pairwise (fun a b => ∀ i ∈ a, i ∉ b) →
      (∀ b ∈ blocks, b.Nodup ∧ ∀ i ∈ b, i < g.n) →
      find_communities_children rec blocks idx g depth method st = Except.ok (cts, st2) →
      ∃ V : List (Option String × Graph),
        (∀ p ∈ V, ∀ x, x ∈ p.2.labels → ∃ b ∈ blocks, x ∈ (g.inducedSubgraph b).labels) ∧
        (∀ p ∈ V, depthMeasure depth + 1 ≤ depthMeasure p.1) ∧
        (∀ x, x ∈ regs → st2.key_reg_trace.lookup x =
          ((V.filter (fun p => decide (x ∈ p.2.labels))).getLast?).elim
            (st.key_reg_trace.lookup x) (fun q => some q.1)) ∧
        (∀ x, x ∉ regs → st2.key_reg_trace.lookup x = st.key_reg_trace.lookup x) ∧
        (∀ x, (V.filter (fun p => decide (x ∈ p.2.labels))).Pairwise
          (fun p q => depthMeasure p.1 < depthMeasure q.1)) := by
  intro blocks
  induction blocks with
  | nil =>
    intro idx st cts st2 hnd hpw hbf h
    rw [find_communities_children.eq_def] at h
    cases h
    exact ⟨[], by simp, by simp, fun x _ => by simp, fun x _ => rfl, fun x => by simp⟩
  | cons vs rest ih =>
    intro idx st cts st2 hnd hpw hbf h
    rw [find_communities_children.eq_def] at h
    dsimp only at h
    cases h1 : rec (g.inducedSubgraph vs) (some (child_depth depth idx)) method st with
    | error e => rw [h1] at h; cases h
    | ok q =>
      obtain ⟨ct, st1⟩ := q
      rw [h1] at h
      dsimp only at h
      cases h2 : find_communities_children rec rest (idx + 1) g depth method st1 with
      | error e => rw [h2] at h; cases h
      | ok q2 =>
        obtain ⟨cts2, stf⟩ := q2
        rw [h2] at h
        cases h
        obtain ⟨hvsnd, hvsv⟩ := hbf vs (List.mem_cons_self _ _)
        have hsubnd : (g.inducedSubgraph vs).labels.Nodup :=
          inducedSubgraph_labels_nodup g vs hnd hvsv hvsnd
        obtain ⟨V1, hV1h, hV1s, hV1d, hV1t, hV1tn, hV1p⟩ :=
          Hrec (g.inducedSubgraph vs) (some (child_depth depth idx)) st ct st1 hsubnd h1
        obtain ⟨hvs_rest, hpw_rest⟩ := List.pairwise_cons.mp hpw
        obtain ⟨V2, hV2s, hV2d, hV2t, hV2tn, hV2p⟩ :=
          ih (idx + 1) st1 cts2 st2 hnd hpw_rest
            (fun b hb => hbf b (List.mem_cons_of_mem _ hb)) h2
        have hV1mem : ∀ p ∈ V1, ∀ x, x ∈ p.2.labels → x ∈ (g.inducedSubgraph vs).labels :=
          hV1s
        have hV1deep : ∀ p ∈ V1, depthMeasure depth + 1 ≤ depthMeasure p.1 := by
          intro p hp
          cases hV1 : V1 with
          | nil => rw [hV1] at hp; cases hp
          | cons v1 t1 =>
            rw [hV1] at hV1h hp
            have hv1 : v1 = (some (child_depth depth idx), g.inducedSubgraph vs) := by
              simpa using hV1h
            rcases List.mem_cons.mp hp with rfl | hpt
            · rw [hv1]
              exact depthMeasure_child depth idx
            · have := hV1d p (by rw [hV1]; exact hpt)
              have h3 := depthMeasure_child depth idx
              omega
        refine ⟨V1 ++ V2, ?_, ?_, ?_, ?_, ?_⟩
        · intro p hp x hx
          rcases List.mem_append.mp hp with hp1 | hp2
          · exact ⟨vs, List.mem_cons_self _ _, hV1mem p hp1 x hx⟩
          · obtain ⟨b, hb, hxb⟩ := hV2s p hp2 x hx
            exact ⟨b, List.mem_cons_of_mem _ hb, hxb⟩
        · intro p hp
          rcases List.mem_append.mp hp with hp1 | hp2
          · exact hV1deep p hp1
          · exact hV2d p hp2
        · intro x hx
          rw [List.filter_append]
          cases hf2 : V2.filter (fun p => decide (x ∈ p.2.labels)) with
          | nil =>
            rw [List.append_nil]
            have ht2 := hV2t x hx
            rw [hf2] at ht2
            simp only [List.getLast?_nil, Option.elim] at ht2
            rw [ht2]
            exact hV1t x hx
          | cons qh qt =>
            rw [List.getLast?_append_of_ne_nil _ (by simp)]
            have ht2 := hV2t x hx
            rw [hf2] at ht2
            rw [ht2]
            rcases hlast : (qh :: qt).getLast? with _ | qq
            · exact absurd (List.getLast?_eq_none_iff.mp hlast) (List.cons_ne_nil qh qt)
            · rfl
        · intro x hx
          rw [hV2tn x hx, hV1tn x hx]
        · intro x
          rw [List.filter_append]
          refine List.pairwise_append.mpr ⟨hV1p x, hV2p x, ?_⟩
          intro p hp q hq
          exfalso
          have hpv := List.mem_filter.mp hp
          have hqv := List.mem_filter.mp hq
          have hxp : x ∈ p.2.labels := of_decide_eq_true hpv.2
          have hxq : x ∈ q.2.labels := of_decide_eq_true hqv.2
          have hxsub : x ∈ (g.inducedSubgraph vs).labels := hV1mem p hpv.1 x hxp
          obtain ⟨b, hb, hxb⟩ := hV2s q hqv.1 x hxq
          obtain ⟨-, hbv⟩ := hbf b (List.mem_cons_of_mem _ hb)
          exact induced_labels_disjoint g hnd vs b (hvs_rest b hb) hvsv hbv x hxsub hxb

theorem findRec_trace (lib : CentralityLib) (P : Graph → Nat → List (List Nat)) (cfg : Config)
    (hP : ValidPartitioner P) :
    ∀ fuel g depth method st t st2,
      g.labels.Nodup →
      find_communities_recursive lib P cfg fuel g depth method st = Except.ok (t, st2) →
      ∃ V : List (Option String × Graph),
        V.head? = some (depth, g) ∧
        (∀ p ∈ V, ∀ x, x ∈ p.2.labels → x ∈ g.labels) ∧
        (∀ p ∈ V.tail, depthMeasure depth + 1 ≤ depthMeasure p.1) ∧
        (∀ x, x ∈ cfg.key_regulators → st2.key_reg_trace.lookup x =
          ((V.filter (fun p => decide (x ∈ p.2.labels))).getLast?).elim
            (st.key_reg_trace.lookup x) (fun q => some q.1)) ∧
        (∀ x, x ∉ cfg.key_regulators →
          st2.key_reg_trace.lookup x = st.key_reg_trace.lookup x) ∧
        (∀ x, (V.filter (fun p => decide (x ∈ p.2.labels))).Pairwise
          (fun p q => depthMeasure p.1 < depthMeasure q.1)) := by
  intro fuel
  induction fuel with
  | zero =>
    intro g depth method st t st2 hnd h
    rw [find_communities_recursive] at h
    cases h
  | succ fuel ih =>
    intro g depth method st t st2 hnd h
    obtain ⟨props, hp, hbr⟩ := findRec_succ_inv lib P cfg fuel g depth method st t st2 h
    have hleafV : ∀ (stx : St), stx.key_reg_trace =
        (record_trace cfg g depth (record_subgraph depth g st)).key_reg_trace →
        ∃ V : List (Option String × Graph),
          V.head? = some (depth, g) ∧
          (∀ p ∈ V, ∀ x, x ∈ p.2.labels → x ∈ g.labels) ∧
          (∀ p ∈ V.tail, depthMeasure depth + 1 ≤ depthMeasure p.1) ∧
          (∀ x, x ∈ cfg.key_regulators → stx.key_reg_trace.lookup x =
            (([((depth, g) : Option String × Graph)].filter
                (fun p => decide (x ∈ p.2.labels))).getLast?).elim
              (st.key_reg_trace.lookup x) (fun q => some q.1)) ∧
          (∀ x, x ∉ cfg.key_regulators →
            stx.key_reg_trace.lookup x = st.key_reg_trace.lookup x) ∧
          (∀ x, (([((depth, g) : Option String × Graph)].filter
              (fun p => decide (x ∈ p.2.labels))).Pairwise
            (fun p q => depthMeasure p.1 < depthMeasure q.1))) := by
      intro stx hst
      refine ⟨[(depth, g)], by simp, by simp, by simp, ?_, ?_, ?_⟩
      · intro x hx
        rw [hst, record_trace_lookup, record_subgraph_key_reg_trace]
        by_cases hxl : x ∈ g.labels
        · rw [if_pos ⟨hxl, hx⟩]
          simp [List.filter_cons, hxl]
        · rw [if_neg (fun hc => hxl hc.1)]
          simp [List.filter_cons, hxl]
      · intro x hx
        rw [hst, record_trace_lookup, record_subgraph_key_reg_trace,
          if_neg (fun hc => hx hc.2)]
      · intro x
        by_cases hxl : x ∈ g.labels <;> simp [List.filter_cons, hxl]
    rcases hbr with ⟨hc, rfl, rfl⟩ | ⟨hc, hm, he, rfl, rfl⟩ | ⟨hc, hm, he, rfl, rfl⟩ |
        ⟨hc, hm, cts, st3, hch, htt, hst⟩
    · obtain ⟨V, h1, h2, h3, h4, h5, h6⟩ := hleafV _ rfl
      exact ⟨[(depth, g)], by simp, by simp, by simp, h4, h5, h6⟩
    · obtain ⟨V, h1, h2, h3, h4, h5, h6⟩ := hleafV
        { record_trace cfg g depth (record_subgraph depth g st) with
            leaf_communities_edgelist :=
              updAssoc (record_trace cfg g depth
                (record_subgraph depth g st)).leaf_communities_edgelist depth
                g.edgeLabels } rfl
      exact ⟨[(depth, g)], by simp, by simp, by simp, h4, h5, h6⟩
    · obtain ⟨V, h1, h2, h3, h4, h5, h6⟩ := hleafV _ rfl
      exact ⟨[(depth, g)], by simp, by simp, by simp, h4, h5, h6⟩
    · have hblocks := hP g method
      have hsub := pyRemoveLoop_sublist g.n (P g method).length (P g method) 0
      have hpwb : (pyRemoveFull g.n (P g method)).Pairwise (fun a b => ∀ i ∈ a, i ∉ b) :=
        hblocks.1.sublist hsub
      have hbf : ∀ b ∈ pyRemoveFull g.n (P g method), b.Nodup ∧ ∀ i ∈ b, i < g.n := by
        intro b hb
        obtain ⟨-, hnb, hvb⟩ := hblocks.2 b (hsub.mem hb)
        exact ⟨hnb, hvb⟩
      obtain ⟨Vch, hVs, hVd, hVt, hVtn, hVp⟩ :=
        children_trace cfg.key_regulators (find_communities_recursive lib P cfg fuel) method
          g depth
          (fun sub d2 stx tx stx2 hsnd hok => ih sub d2 method stx tx stx2 hsnd hok)
          (pyRemoveFull g.n (P g method)) 1
          (record_root_edges depth g (record_trace cfg g depth (record_subgraph depth g st)))
          cts st3 hnd hpwb hbf hch
      have hstart : (record_root_edges depth g
          (record_trace cfg g depth (record_subgraph depth g st))).key_reg_trace =
          (record_trace cfg g depth (record_subgraph depth g st)).key_reg_trace := by
        simp
      have hVsg : ∀ p ∈ Vch, ∀ x, x ∈ p.2.labels → x ∈ g.labels := by
        intro p hpv x hx
        obtain ⟨b, hb, hxb⟩ := hVs p hpv x hx
        obtain ⟨hnb, hvb⟩ := hbf b hb
        exact inducedSubgraph_labels_subset g b hvb x hxb
      refine ⟨(depth, g) :: Vch, by simp, ?_, ?_, ?_, ?_, ?_⟩
      · intro p hpv x hx
        rcases List.mem_cons.mp hpv with rfl | hpt
        · exact hx
        · exact hVsg p hpt x hx
      · intro p hpv
        exact hVd p hpv
      · intro x hx
        rw [hst]
        have hq := hVt x hx
        rw [hstart, record_trace_lookup, record_subgraph_key_reg_trace] at hq
        rw [List.filter_cons]
        by_cases hxl : x ∈ g.labels
        · rw [if_pos ⟨hxl, hx⟩] at hq
          rw [if_pos (by simpa using hxl)]
          cases hfc : Vch.filter (fun p => decide (x ∈ p.2.labels)) with
          | nil =>
            rw [hfc] at hq
            simp only [List.getLast?_nil, Option.elim] at hq
            rw [hq]
            simp
          | cons qh qt =>
            rw [hfc] at hq
            rw [hq, List.getLast?_cons_cons]
            rcases hlast : (qh :: qt).getLast? with _ | qq
            · exact absurd (List.getLast?_eq_none_iff.mp hlast) (List.cons_ne_nil qh qt)
            · rfl
        · rw [if_neg (fun hc => hxl hc.1)] at hq
          rw [if_neg (by simpa using hxl)]
          cases hfc : Vch.filter (fun p => decide (x ∈ p.2.labels)) with
          | nil =>
            rw [hfc] at hq
            simp only [List.getLast?_nil, Option.elim] at hq
            rw [hq]
            simp
          | cons qh qt =>
            rw [hfc] at hq
            rw [hq]
      · intro x hx
        rw [hst, hVtn x hx, hstart, record_trace_lookup, record_subgraph_key_reg_trace,
          if_neg (fun hc => hx hc.2)]
      · intro x
        rw [List.filter_cons]
        by_cases hxl : x ∈ g.labels
        · rw [if_pos (by simpa using hxl)]
          refine List.pairwise_cons.mpr ⟨?_, hVp x⟩
          intro q hq
          have hqv := List.mem_filter.mp hq
          have := hVd q hqv.1
          show depthMeasure depth < depthMeasure q.1
          omega
        · rw [if_neg (by simpa using hxl)]
          exact hVp x

theorem pairwise_lt_getLast {α : Type} (f : α → Nat) :
    ∀ (l : List α), l.Pairwise (fun p q => f p < f q) →
      ∀ a ∈ l, ∀ b, l.getLast? = some b → f a ≤ f b := by
  intro l
  induction l with
  | nil => intro _ a ha; cases ha
  | cons h t ih =>
    intro hpw a ha b hb
    obtain ⟨hht, hpt⟩ := List.pairwise_cons.mp hpw
    cases t with
    | nil =>
      have hb2 : h = b := by simpa using hb
      have ha2 : a = h := by simpa using ha
      rw [ha2, hb2]
    | cons c t2 =>
      rw [List.getLast?_cons_cons] at hb
      have hbmem : b ∈ c :: t2 := List.mem_of_mem_getLast? hb
      rcases List.mem_cons.mp ha with rfl | hat
      · exact Nat.le_of_lt (hht b hbmem)
      · exact ih hpt a hat b hb

theorem partSingletons_valid : ValidPartitioner partSingletons := by
  intro g method
  constructor
  · rw [partSingletons, List.pairwise_map]
    refine (List.pairwise_lt_range g.n).imp_of_mem ?_
    intro i j _ _ hij x hxi hxj
    rw [List.mem_singleton.mp hxi] at hxj
    exact Nat.ne_of_lt hij (List.mem_singleton.mp hxj)
  · intro b hb
    obtain ⟨i, hi, rfl⟩ := List.mem_map.mp hb
    exact ⟨by simp, by simp, by simpa using List.mem_range.mp hi⟩

/-- Claim C2, amended.  For a full run from the root (depth argument None)
with a contract-abiding partitioner and distinct vertex labels, every
key-regulator label present in the root maps in KeyRegulatorTrace to the
raw depth argument of the deepest visit containing it: the visits
containing the regulator form a chain of strictly increasing depth, the
stored value is the last (hence deepest) entry of that chain, and a
regulator contained in no proper subgraph maps to the root marker None -
not to "0" as the claim states, since src line 202 stores the raw depth
parameter. -/
theorem c2_amended_theorem (lib : CentralityLib) (P : Graph → Nat → List (List Nat))
    (cfg : Config) (fuel : Nat) (g : Graph) (method : Nat) (st : St) (t : TreeNode) (st2 : St)
    (x : String) (hP : ValidPartitioner P) (hnd : g.labels.Nodup)
    (h : find_communities_recursive lib P cfg fuel g Option.none method st = Except.ok (t, st2))
    (hx : x ∈ cfg.key_regulators) (hxg : x ∈ g.labels) :
    ∃ V : List (Option String × Graph),
      V.head? = some (Option.none, g) ∧
      (∀ p ∈ V, ∀ y, y ∈ p.2.labels → y ∈ g.labels) ∧
      (V.filter (fun p => decide (x ∈ p.2.labels))).Pairwise
        (fun p q => depthMeasure p.1 < depthMeasure q.1) ∧
      ∃ q, (V.filter (fun p => decide (x ∈ p.2.labels))).getLast? = some q ∧
        st2.key_reg_trace.lookup x = some q.1 ∧
        (∀ p ∈ V, x ∈ p.2.labels → depthMeasure p.1 ≤ depthMeasure q.1) ∧
        ((∀ p ∈ V.tail, x ∉ p.2.labels) → q = (Option.none, g)) := by
  obtain ⟨V, h1, h2, h3, h4, h5, h6⟩ :=
    findRec_trace lib P cfg hP fuel g Option.none method st t st2 hnd h
  cases V with
  | nil => cases h1
  | cons v0 Vt =>
    have hv0 : v0 = (Option.none, g) := by simpa using h1
    subst hv0
    have hfil : (((Option.none, g) :: Vt).filter (fun p => decide (x ∈ p.2.labels))) =
        (Option.none, g) :: Vt.filter (fun p => decide (x ∈ p.2.labels)) := by
      rw [List.filter_cons, if_pos (by simpa using hxg)]
    obtain ⟨q, hq⟩ : ∃ q,
        (((Option.none, g) :: Vt).filter (fun p => decide (x ∈ p.2.labels))).getLast? =
          some q := by
      rw [hfil]
      rcases hl : ((Option.none, g) :: Vt.filter
          (fun p => decide (x ∈ p.2.labels))).getLast? with _ | qq
      · exact absurd (List.getLast?_eq_none_iff.mp hl) (List.cons_ne_nil _ _)
      · exact ⟨qq, rfl⟩
    refine ⟨(Option.none, g) :: Vt, h1, h2, h6 x, q, hq, ?_, ?_, ?_⟩
    · rw [h4 x hx, hq]
      rfl
    · intro p hp hxp
      refine pairwise_lt_getLast (fun p => depthMeasure p.1) _ (h6 x) p ?_ q hq
      exact List.mem_filter.mpr ⟨hp, decide_eq_true hxp⟩
    · intro honly
      have hfilt : Vt.filter (fun p => decide (x ∈ p.2.labels)) = [] := by
        rw [List.filter_eq_nil_iff]
        intro p hp
        simpa using honly p hp
      rw [hfil, hfilt] at hq
      simpa using hq.symm

/-- Claim C2, counterexample.  A full parse run on the triangle selects
regulators b and c, which occur only in the root graph; their final trace
entries are the Python None written at the root call, not "0". -/
theorem c2_counterexample :
    (parse libZero partSingletons triangleGraph 4 3 (PyVal.int 3) (PyVal.int 2)
        (PyVal.str "louvain")).toOption.map
      (fun o => (o.st.key_reg_trace, o.max_degree_nodes)) =
      some ([("b", Option.none), ("c", Option.none)], [("b", 2), ("c", 2)]) := rfl

/-- Claim C2, witness: the amended theorem applied to a concrete run on
the one-vertex graph tracing label a. -/
theorem c2_witness :
    ∃ V : List (Option String × Graph),
      V.head? = some (Option.none, oneVertexGraph) ∧
      (∀ p ∈ V, ∀ y, y ∈ p.2.labels → y ∈ oneVertexGraph.labels) ∧
      (V.filter (fun p => decide ("a" ∈ p.2.labels))).Pairwise
        (fun p q => depthMeasure p.1 < depthMeasure q.1) ∧
      ∃ q, (V.filter (fun p => decide ("a" ∈ p.2.labels))).getLast? = some q ∧
        (⟨[("a", Option.none)], [], [], []⟩ : St).key_reg_trace.lookup "a" = some q.1 ∧
        (∀ p ∈ V, "a" ∈ p.2.labels → depthMeasure p.1 ≤ depthMeasure q.1) ∧
        ((∀ p ∈ V.tail, "a" ∉ p.2.labels) → q = (Option.none, oneVertexGraph)) :=
  c2_amended_theorem libZero partSingletons cfgA 2 oneVertexGraph 0 emptySt
    (TreeNode.mk "root" "0" 1 [("a", [-1, -1, -1, -1, -1, -1, -1])] 1 true true [])
    ⟨[("a", Option.none)], [], [], []⟩ "a" partSingletons_valid (by decide) rfl (by decide)
    (by decide)
